import Mathlib

/-!
# TPQueue: a singly linked priority queue (`include/tpqueue.h`)

The chain of heap nodes hanging off `head_` is embedded as the list of the nodes' `data`
fields read head to tail: `nullptr` is `[]`, and a node `n` with `n->next = rest` is
`n.data :: rest`.  Every operation of the class only ever follows `next` links starting at
`head_`, and a node belongs to one chain only, so the list carries all the state there is.

`int` priorities are embedded in `Int`; the code only compares them (`>` and `>=`), so no
arithmetic can overflow.

The class is embedded a second time over a memory of nodes with addresses (`Mem`), where
copying, moving and tearing down a queue can be told from sharing its nodes.  On a chain that
an object owns, `push` and `pop` over the memory act on the payloads exactly as `push` and
`pop` over lists do (`Mem.step_spec`, `Mem.run_spec`).
-/

namespace TPQ

/-- The example payload `struct SYM { char ch; int prior; }`. -/
structure SYM where
  ch : Char
  prior : Int
deriving DecidableEq

/-- What the template `TPQueue<T>` uses of its parameter `T`: the field `prior`
(read in `push`) and value initialisation `T{}` (returned by `pop` on an empty queue). -/
class Elem (T : Type) where
  prior : T → Int
  dflt : T

/-- The instance for `SYM`: `prior` is the field, and `SYM{}` zeroes both fields. -/
instance : Elem SYM where
  prior s := s.prior
  dflt := ⟨Char.ofNat 0, 0⟩

/-- The class `TPQueue<T>`: its only data member is `head_`. -/
structure TPQueue (T : Type) where
  head_ : List T

namespace TPQueue

variable {T : Type} [Elem T]

/-- The default constructor `TPQueue() : head_(nullptr) {}`. -/
def new : TPQueue T := ⟨[]⟩

/-- The method `empty`: `return head_ == nullptr;`. -/
def empty (q : TPQueue T) : Bool :=
  match q.head_ with
  | [] => true
  | _ :: _ => false

/-- The loop of `push` together with the splice that follows it.  The argument is the chain
`prev->next`; while it is not `nullptr` and its first node has `prior >= value.prior`, `prev`
advances over that node; then the new node is linked in between `prev` and `prev->next`. -/
def walk (value : T) : List T → List T
  | [] => [value]
  | n :: rest =>
    if Elem.prior n ≥ Elem.prior value then n :: walk value rest
    else value :: n :: rest

/-- The method `push`: a new head when the queue is empty or `value.prior` is greater than
the head's priority, otherwise the walk starting with `prev = head_`. -/
def push (q : TPQueue T) (value : T) : TPQueue T :=
  match q.head_ with
  | [] => ⟨[value]⟩
  | h :: rest =>
    if Elem.prior value > Elem.prior h then ⟨value :: h :: rest⟩
    else ⟨h :: walk value rest⟩

/-- The method `pop`: on an empty queue `T{}` and the queue as it was; otherwise the head's
data, with `head_` moved to `head_->next`. -/
def pop (q : TPQueue T) : T × TPQueue T :=
  match q.head_ with
  | [] => (Elem.dflt, q)
  | h :: rest => (h, ⟨rest⟩)

/-- A client loop `for (x : xs) q.push(x);`: the elements of `xs` pushed one by one. -/
def pushAll (q : TPQueue T) (xs : List T) : TPQueue T :=
  xs.foldl push q

/-- A client loop `while (!q.empty()) out.push_back(q.pop());`: the values returned by `pop`,
in call order, until the queue reports empty. -/
def popAll (q : TPQueue T) : List T :=
  if q.empty = true then [] else (q.pop).1 :: popAll (q.pop).2
termination_by q.head_.length
decreasing_by
  all_goals
    rcases q with ⟨_ | ⟨h, rest⟩⟩
    · simp_all [empty]
    · simp [pop]

/-- The method `pop` called `n` times in a row: the returned values in call order, and the
queue after the last call. -/
def popN : Nat → TPQueue T → List T × TPQueue T
  | 0, q => ([], q)
  | n + 1, q => ((q.pop).1 :: (popN n (q.pop).2).1, (popN n (q.pop).2).2)

/-- Invariant I1: read head to tail, the chain is non-increasing in `prior`. -/
def I1 (q : TPQueue T) : Prop :=
  q.head_.Pairwise (fun a b => Elem.prior a ≥ Elem.prior b)

instance (q : TPQueue T) : Decidable (I1 q) :=
  inferInstanceAs (Decidable (List.Pairwise _ _))

end TPQueue

/-- One call on a queue by a client: `push(value)` or `pop()` (its result dropped). -/
inductive Op (T : Type) where
  | push (value : T)
  | pop

namespace TPQueue

variable {T : Type} [Elem T]

/-- The queue after one client call. -/
def step (q : TPQueue T) : Op T → TPQueue T
  | .push value => q.push value
  | .pop => (q.pop).2

/-- The queue after a sequence of client calls, first call first. -/
def run (q : TPQueue T) (ops : List (Op T)) : TPQueue T :=
  ops.foldl step q

end TPQueue

/-- A payload together with a mark telling the node made by the call of `push` under study
(`fresh = true`) from the nodes that were in the chain before it.  The mark stands for the
identity (address) of a node, which equal payloads do not reveal. -/
structure Marked (T : Type) where
  data : T
  fresh : Bool
deriving DecidableEq

/-- A marked payload is compared as its payload is: `push` never reads the mark. -/
instance (T : Type) [Elem T] : Elem (Marked T) where
  prior m := Elem.prior m.data
  dflt := ⟨Elem.dflt, false⟩

/-- The payload of a node that was in the chain before the call. -/
def Marked.old {T : Type} (x : T) : Marked T :=
  ⟨x, false⟩

/-- The payload of the node that the call of `push` makes: `new Node(value)`. -/
def Marked.made {T : Type} (value : T) : Marked T :=
  ⟨value, true⟩

/-- The chain of `q` with every node marked as already present. -/
def Marked.chain {T : Type} (q : TPQueue T) : TPQueue (Marked T) :=
  ⟨q.head_.map Marked.old⟩

/-- The order "by descending priority" as a comparison function: `a` may come before `b`
when `a.prior >= b.prior`. -/
def byPriorDesc {T : Type} [Elem T] (a b : T) : Bool :=
  decide (Elem.prior a ≥ Elem.prior b)

/-- The stable sort of a sequence by descending priority, as the specification words it:
the library's stable merge sort under `byPriorDesc`. -/
def stableSortDesc {T : Type} [Elem T] (xs : List T) : List T :=
  xs.mergeSort byPriorDesc

/-- The elements of a sequence that have priority `p`, in the order of the sequence. -/
def withPrior {T : Type} [Elem T] (p : Int) (xs : List T) : List T :=
  xs.filter (fun x => decide (Elem.prior x = p))

/-! ## The queues as linked nodes in memory

The copy, move and teardown paths are about which nodes a queue owns, so for them the class
is embedded over an explicit memory: nodes live at addresses, `new` hands out addresses, a
`Node*` is `none` (for `nullptr`) or an address, and every `TPQueue` object is known by its
own address (`this`, `&other`).  A method returns `none` where the C++ program has no defined
result: a null or dangling pointer is dereferenced, a dead node is deleted, or a loop does
not come to an end. -/

/-- The private `struct Node { T data; Node* next; }`. -/
structure Node (T : Type) where
  data : T
  next : Option Nat
deriving DecidableEq

/-- The memory: the live nodes by address (`none`: no live node there), the address that the
next `new Node` returns, and the member `head_` of the queue object at each object
address. -/
structure Mem (T : Type) where
  node : Nat → Option (Node T)
  brk : Nat
  head_ : Nat → Option Nat

/-- The map `f` with the value at `a` replaced by `v`. -/
def put {α : Type} (f : Nat → α) (a : Nat) (v : α) : Nat → α :=
  fun x => if x = a then v else f x

/-- A node's address together with its payload, compared as the payload is. -/
instance (T : Type) [Elem T] : Elem (Nat × T) where
  prior x := Elem.prior x.2
  dflt := (0, Elem.dflt)

namespace Mem

variable {T : Type} [Elem T]

/-- The method `empty` of the object at `this`: `return head_ == nullptr;`. -/
def empty (m : Mem T) (this : Nat) : Bool :=
  match m.head_ this with
  | none => true
  | some _ => false

/-- The expression `new Node(d)`: a node with `data = d` and `next = nullptr` at a fresh
address, which is returned together with the memory. -/
def alloc (m : Mem T) (d : T) : Nat × Mem T :=
  (m.brk, { m with node := put m.node m.brk (some ⟨d, none⟩), brk := m.brk + 1 })

/-- The assignment `p->next = nx`; undefined when no live node is at `p`. -/
def setNext (m : Mem T) (p : Nat) (nx : Option Nat) : Option (Mem T) :=
  match m.node p with
  | none => none
  | some n => some { m with node := put m.node p (some ⟨n.data, nx⟩) }

/-- The loop of `push`, from `prev`: while `prev->next != nullptr` and
`prev->next->data.prior >= value.prior`, `prev = prev->next`; the result is the final `prev`.
The first argument bounds the number of evaluations of the loop test. -/
def walk : Nat → Mem T → Nat → T → Option Nat
  | 0, _, _, _ => none
  | fuel + 1, m, prev, value =>
    match m.node prev with
    | none => none
    | some pn =>
      match pn.next with
      | none => some prev
      | some nx =>
        match m.node nx with
        | none => none
        | some nn =>
          if Elem.prior nn.data ≥ Elem.prior value then walk fuel m nx value else some prev

/-- The end of `push`: `new_node->next = prev->next; prev->next = new_node;`. -/
def linkAfter (m : Mem T) (new_node prev : Nat) : Option (Mem T) :=
  match m.node prev with
  | none => none
  | some pn =>
    match m.setNext new_node pn.next with
    | none => none
    | some m1 => m1.setNext prev (some new_node)

/-- The head branch of `push`: `new_node->next = head_; head_ = new_node;`. -/
def linkHead (m : Mem T) (this new_node : Nat) : Option (Mem T) :=
  match m.setNext new_node (m.head_ this) with
  | none => none
  | some m1 => some { m1 with head_ := put m1.head_ this (some new_node) }

/-- The method `push` of the object at `this`.  A chain visits distinct live nodes, which all
have addresses below `brk`, so `brk` evaluations of the loop test are enough for the walk. -/
def push (m : Mem T) (this : Nat) (value : T) : Option (Mem T) :=
  match (m.alloc value).2.head_ this with
  | none => (m.alloc value).2.linkHead this (m.alloc value).1
  | some h =>
    match (m.alloc value).2.node h with
    | none => none
    | some hn =>
      if Elem.prior value > Elem.prior hn.data then
        (m.alloc value).2.linkHead this (m.alloc value).1
      else
        match walk (m.alloc value).2.brk (m.alloc value).2 h value with
        | none => none
        | some prev => (m.alloc value).2.linkAfter (m.alloc value).1 prev

/-- The method `pop` of the object at `this`: `T{}` when empty; otherwise
`to_delete = head_; head_ = head_->next; result = to_delete->data; delete to_delete;`. -/
def pop (m : Mem T) (this : Nat) : Option (T × Mem T) :=
  match m.head_ this with
  | none => some (Elem.dflt, m)
  | some to_delete =>
    match m.node to_delete with
    | none => none
    | some n =>
      some (n.data,
        { m with head_ := put m.head_ this n.next, node := put m.node to_delete none })

/-- The loop of `Clear`: `while (!empty()) pop();`, which also counts the calls of `pop`. -/
def clearLoop : Nat → Mem T → Nat → Option (Nat × Mem T)
  | 0, m, this => if m.empty this = true then some (0, m) else none
  | fuel + 1, m, this =>
    if m.empty this = true then some (0, m)
    else
      match m.pop this with
      | none => none
      | some r =>
        match clearLoop fuel r.2 this with
        | none => none
        | some c => some (c.1 + 1, c.2)

/-- The private method `Clear` of the object at `this`, with the number of pops it made. -/
def Clear (m : Mem T) (this : Nat) : Option (Nat × Mem T) :=
  clearLoop m.brk m this

/-- The loop of `CopyFrom`: while `src_cur != nullptr`,
`dst_cur->next = new Node(src_cur->data); dst_cur = dst_cur->next; src_cur = src_cur->next;`. -/
def copyLoop : Nat → Mem T → Nat → Option Nat → Option (Mem T)
  | _, m, _, none => some m
  | 0, _, _, some _ => none
  | fuel + 1, m, dst_cur, some src_cur =>
    match m.node src_cur with
    | none => none
    | some sn =>
      match (m.alloc sn.data).2.setNext dst_cur (some (m.alloc sn.data).1) with
      | none => none
      | some m1 => copyLoop fuel m1 (m.alloc sn.data).1 sn.next

/-- The private method `CopyFrom(other)` of the object at `this`: nothing when `other` is
empty; otherwise `head_ = new Node(other.head_->data)` and the loop from
`dst_cur = head_`, `src_cur = other.head_->next`. -/
def CopyFrom (m : Mem T) (this other : Nat) : Option (Mem T) :=
  match m.head_ other with
  | none => some m
  | some oh =>
    match m.node oh with
    | none => none
    | some sn =>
      copyLoop m.brk
        { (m.alloc sn.data).2 with
          head_ := put (m.alloc sn.data).2.head_ this (some (m.alloc sn.data).1) }
        (m.alloc sn.data).1 sn.next

/-- The default constructor at `this`: `head_(nullptr)`. -/
def construct (m : Mem T) (this : Nat) : Mem T :=
  { m with head_ := put m.head_ this none }

/-- The copy constructor at `this`: `head_(nullptr)`, then `CopyFrom(other)`. -/
def copyConstruct (m : Mem T) (this other : Nat) : Option (Mem T) :=
  (m.construct this).CopyFrom this other

/-- The copy assignment `*this = other`: `if (this != &other) { Clear(); CopyFrom(other); }`. -/
def copyAssign (m : Mem T) (this other : Nat) : Option (Mem T) :=
  if this ≠ other then
    match m.Clear this with
    | none => none
    | some r => r.2.CopyFrom this other
  else some m

/-- The two assignments shared by both move operations:
`head_ = other.head_; other.head_ = nullptr;`. -/
def steal (m : Mem T) (this other : Nat) : Mem T :=
  { m with head_ := put (put m.head_ this (m.head_ other)) other none }

/-- The move constructor at `this`: `head_(other.head_)`, then `other.head_ = nullptr`. -/
def moveConstruct (m : Mem T) (this other : Nat) : Option (Mem T) :=
  some (m.steal this other)

/-- The move assignment `*this = std::move(other)`:
`if (this != &other) { Clear(); head_ = other.head_; other.head_ = nullptr; }`. -/
def moveAssign (m : Mem T) (this other : Nat) : Option (Mem T) :=
  if this ≠ other then
    match m.Clear this with
    | none => none
    | some r => some (r.2.steal this other)
  else some m

/-- The destructor of the object at `this`: `Clear();`, with the number of pops. -/
def destruct (m : Mem T) (this : Nat) : Option (Nat × Mem T) :=
  m.Clear this

/-- A client loop `while (!q.empty()) out.push_back(q.pop());` on the object at `this`. -/
def popAllLoop : Nat → Mem T → Nat → Option (List T × Mem T)
  | 0, m, this => if m.empty this = true then some ([], m) else none
  | fuel + 1, m, this =>
    if m.empty this = true then some ([], m)
    else
      match m.pop this with
      | none => none
      | some r =>
        match popAllLoop fuel r.2 this with
        | none => none
        | some c => some (r.1 :: c.1, c.2)

/-- The values popped from the object at `this` until it reports empty. -/
def popAll (m : Mem T) (this : Nat) : Option (List T) :=
  (popAllLoop m.brk m this).map Prod.fst

/-- One client call on the object at `this`. -/
def step (m : Mem T) (this : Nat) : Op T → Option (Mem T)
  | .push value => m.push this value
  | .pop => (m.pop this).map Prod.snd

/-- A sequence of client calls on the object at `this`, first call first. -/
def run (m : Mem T) (this : Nat) : List (Op T) → Option (Mem T)
  | [] => some m
  | op :: ops =>
    match m.step this op with
    | none => none
    | some m1 => m1.run this ops

/-- The chain that starts at pointer `p` visits exactly the nodes `l`, given by address and
payload, and ends in `nullptr`. -/
def IsChain (m : Mem T) : Option Nat → List (Nat × T) → Prop
  | p, [] => p = none
  | p, x :: rest => p = some x.1 ∧ ∃ nx, m.node x.1 = some ⟨x.2, nx⟩ ∧ IsChain m nx rest

/-- The object at `this` owns the chain `l`: `head_` leads through exactly the nodes `l`,
no node comes twice, and all were handed out by `new`. -/
def Owns (m : Mem T) (this : Nat) (l : List (Nat × T)) : Prop :=
  m.IsChain (m.head_ this) l ∧ (l.map Prod.fst).Nodup ∧ ∀ x ∈ l.map Prod.fst, x < m.brk

/-- Two distinct queue objects `a` and `b` own the chains `la` and `lb`, and no node is in
both chains (invariant I2). -/
def Sep (m : Mem T) (a b : Nat) (la lb : List (Nat × T)) : Prop :=
  a ≠ b ∧ m.Owns a la ∧ m.Owns b lb ∧ ∀ x ∈ la.map Prod.fst, x ∉ lb.map Prod.fst

/-- The nodes that `CopyFrom` makes for the chain `l` when the next fresh address is `n`:
the payloads of `l` in order, at the addresses `n`, `n + 1`, ... -/
def copies (n : Nat) : List (Nat × T) → List (Nat × T)
  | [] => []
  | x :: rest => (n, x.2) :: copies (n + 1) rest

end Mem

namespace Mem

/-- A call on the object at `this`, which owned the chain `l` in `m`, has led to `m'`: the
object now owns `l'`, whose nodes are nodes of `l` or nodes made since; `new` never hands out
an old address again; the `head_` of every other object and every node that was outside `l`
are as they were. -/
def Moves {T : Type} (m m' : Mem T) (this : Nat) (l l' : List (Nat × T)) : Prop :=
  m'.Owns this l' ∧ m.brk ≤ m'.brk ∧ (∀ o, o ≠ this → m'.head_ o = m.head_ o) ∧
  (∀ y, y ∉ l.map Prod.fst → y < m.brk → m'.node y = m.node y) ∧
  (∀ x ∈ l'.map Prod.fst, x ∈ l.map Prod.fst ∨ m.brk ≤ x)

end Mem

namespace Mem

/-- A memory with two queues, for the examples: the object at 0 owns the nodes at 0 and 2,
with ('y',9) then ('x',3); the object at 1 owns the node at 1, with ('w',1). -/
def demo : Mem SYM where
  node := fun x =>
    if x = 0 then some ⟨SYM.mk 'y' 9, some 2⟩
    else if x = 1 then some ⟨SYM.mk 'w' 1, none⟩
    else if x = 2 then some ⟨SYM.mk 'x' 3, none⟩
    else none
  brk := 3
  head_ := fun o => if o = 0 then some 0 else if o = 1 then some 1 else none

end Mem

/-! ## Lemmas on `walk`, `push` and `pop` -/

namespace TPQueue

theorem empty_eq_true_iff {T : Type} (q : TPQueue T) : q.empty = true ↔ q.head_ = [] := by
  rcases q with ⟨_ | ⟨h, rest⟩⟩ <;> simp [empty]

theorem empty_eq_false_iff {T : Type} (q : TPQueue T) : q.empty = false ↔ q.head_ ≠ [] := by
  rcases q with ⟨_ | ⟨h, rest⟩⟩ <;> simp [empty]

variable {T : Type} [Elem T]

theorem walk_eq_takeWhile (v : T) (l : List T) :
    walk v l = l.takeWhile (fun x => decide (Elem.prior x ≥ Elem.prior v))
      ++ v :: l.dropWhile (fun x => decide (Elem.prior x ≥ Elem.prior v)) := by
  induction l with
  | nil => simp [walk]
  | cons n rest ih =>
    by_cases h : Elem.prior n ≥ Elem.prior v
    · simp [walk, h, ih, List.takeWhile_cons, List.dropWhile_cons]
    · simp [walk, h, List.takeWhile_cons, List.dropWhile_cons]

theorem push_head_eq (q : TPQueue T) (v : T) :
    (q.push v).head_ = q.head_.takeWhile (fun x => decide (Elem.prior x ≥ Elem.prior v))
      ++ v :: q.head_.dropWhile (fun x => decide (Elem.prior x ≥ Elem.prior v)) := by
  rcases q with ⟨_ | ⟨h, rest⟩⟩
  · simp [push]
  · by_cases hv : Elem.prior v > Elem.prior h
    · have : ¬ Elem.prior h ≥ Elem.prior v := by omega
      simp [push, hv, this, List.takeWhile_cons, List.dropWhile_cons]
    · have : Elem.prior h ≥ Elem.prior v := by omega
      simp [push, hv, this, List.takeWhile_cons, List.dropWhile_cons, walk_eq_takeWhile]

theorem popAll_eq (q : TPQueue T) : popAll q = q.head_ := by
  rcases q with ⟨l⟩
  induction l with
  | nil => rw [popAll]; simp [empty]
  | cons h rest ih => rw [popAll]; simp [empty, pop, ih]

theorem mem_walk (v x : T) (l : List T) : x ∈ walk v l ↔ x = v ∨ x ∈ l := by
  induction l with
  | nil => simp [walk]
  | cons n rest ih =>
    by_cases h : Elem.prior n ≥ Elem.prior v
    · simp only [walk, h, if_true, List.mem_cons, ih]; tauto
    · simp only [walk, h, if_false, List.mem_cons]

theorem walk_pairwise (v : T) (l : List T)
    (hl : l.Pairwise (fun a b => Elem.prior a ≥ Elem.prior b)) :
    (walk v l).Pairwise (fun a b => Elem.prior a ≥ Elem.prior b) := by
  induction l with
  | nil => simp [walk]
  | cons n rest ih =>
    rw [List.pairwise_cons] at hl
    by_cases h : Elem.prior n ≥ Elem.prior v
    · simp only [walk, h, if_true, List.pairwise_cons]
      refine ⟨fun x hx => ?_, ih hl.2⟩
      rcases (mem_walk v x rest).1 hx with rfl | hx
      · exact h
      · exact hl.1 x hx
    · simp only [walk, h, if_false, List.pairwise_cons]
      refine ⟨fun x hx => ?_, hl.1, hl.2⟩
      rcases List.mem_cons.1 hx with rfl | hx
      · omega
      · have := hl.1 x hx
        omega

theorem push_head_eq_walk (q : TPQueue T) (v : T) : (q.push v).head_ = walk v q.head_ := by
  rcases q with ⟨_ | ⟨h, rest⟩⟩
  · simp [push, walk]
  · by_cases hv : Elem.prior v > Elem.prior h
    · have : ¬ Elem.prior h ≥ Elem.prior v := by omega
      simp [push, walk, hv, this]
    · have : Elem.prior h ≥ Elem.prior v := by omega
      simp [push, walk, hv, this]

theorem push_I1 (q : TPQueue T) (v : T) (hq : I1 q) : I1 (q.push v) := by
  unfold I1
  rw [push_head_eq_walk]
  exact walk_pairwise v q.head_ hq

theorem pop_I1 (q : TPQueue T) (hq : I1 q) : I1 (q.pop).2 := by
  rcases q with ⟨_ | ⟨h, rest⟩⟩
  · simpa [pop] using hq
  · unfold I1 at hq ⊢
    simp only [pop]
    exact (List.pairwise_cons.1 hq).2

theorem new_I1 : I1 (new : TPQueue T) := by
  simp [I1, new]

theorem pushAll_I1 (q : TPQueue T) (xs : List T) (hq : I1 q) : I1 (pushAll q xs) := by
  induction xs generalizing q with
  | nil => simpa [pushAll] using hq
  | cons x xs ih => exact ih (q.push x) (push_I1 q x hq)

theorem run_I1 (q : TPQueue T) (ops : List (Op T)) (hq : I1 q) : I1 (run q ops) := by
  induction ops generalizing q with
  | nil => simpa [run] using hq
  | cons op ops ih =>
    cases op with
    | push v => exact ih (q.push v) (push_I1 q v hq)
    | pop => exact ih (q.pop).2 (pop_I1 q hq)

theorem withPrior_walk (p : Int) (v : T) (l : List T)
    (hl : l.Pairwise (fun a b => Elem.prior a ≥ Elem.prior b)) :
    withPrior p (walk v l) = withPrior p l ++ withPrior p [v] := by
  induction l with
  | nil => simp [walk, withPrior]
  | cons n rest ih =>
    rw [List.pairwise_cons] at hl
    by_cases h : Elem.prior n ≥ Elem.prior v
    · have ih2 := ih hl.2
      simp only [withPrior] at ih2 ⊢
      simp only [walk, h, if_true, List.filter_cons, ih2]
      split <;> simp
    · simp only [walk, h, if_false]
      by_cases hp : Elem.prior v = p
      · have hnil : withPrior p (n :: rest) = [] := by
          simp only [withPrior, List.filter_eq_nil_iff, decide_eq_true_eq]
          intro x hx
          rcases List.mem_cons.1 hx with rfl | hx
          · omega
          · have := hl.1 x hx
            omega
        simp only [withPrior] at hnil ⊢
        simp [List.filter_cons, hp, hnil]
      · simp [withPrior, List.filter_cons, hp]

theorem withPrior_pushAll (p : Int) (q : TPQueue T) (xs : List T) (hq : I1 q) :
    withPrior p (pushAll q xs).head_ = withPrior p q.head_ ++ withPrior p xs := by
  induction xs generalizing q with
  | nil => simp [pushAll, withPrior]
  | cons x xs ih =>
    have h := ih (q.push x) (push_I1 q x hq)
    have hw := withPrior_walk p x q.head_ hq
    simp only [pushAll, List.foldl_cons] at h ⊢
    rw [h, push_head_eq_walk, hw]
    simp only [withPrior, List.filter_cons, List.filter_nil, List.append_assoc]
    split <;> simp

/-- A chain non-increasing in priority is determined by its elements of each priority, taken
in chain order. -/
theorem eq_of_pairwise_of_withPrior_eq (l₁ l₂ : List T)
    (h₁ : l₁.Pairwise (fun a b => Elem.prior a ≥ Elem.prior b))
    (h₂ : l₂.Pairwise (fun a b => Elem.prior a ≥ Elem.prior b))
    (hf : ∀ p, withPrior p l₁ = withPrior p l₂) : l₁ = l₂ := by
  induction l₁ generalizing l₂ with
  | nil =>
    cases l₂ with
    | nil => rfl
    | cons b t₂ =>
      have := hf (Elem.prior b)
      simp [withPrior, List.filter_cons] at this
  | cons a t₁ ih =>
    cases l₂ with
    | nil =>
      have := hf (Elem.prior a)
      simp [withPrior, List.filter_cons] at this
    | cons b t₂ =>
      rw [List.pairwise_cons] at h₁ h₂
      have hab : Elem.prior b ≥ Elem.prior a := by
        have ha : a ∈ withPrior (Elem.prior a) (b :: t₂) := by
          rw [← hf]; simp [withPrior]
        simp only [withPrior, List.mem_filter] at ha
        rcases List.mem_cons.1 ha.1 with rfl | hx
        · omega
        · exact h₂.1 a hx
      have hba : Elem.prior a ≥ Elem.prior b := by
        have hb : b ∈ withPrior (Elem.prior b) (a :: t₁) := by
          rw [hf]; simp [withPrior]
        simp only [withPrior, List.mem_filter] at hb
        rcases List.mem_cons.1 hb.1 with rfl | hx
        · omega
        · exact h₁.1 b hx
      have he : Elem.prior a = Elem.prior b := by omega
      have h0 := hf (Elem.prior a)
      simp only [withPrior, List.filter_cons, he, decide_True, if_true, List.cons.injEq] at h0
      obtain ⟨rfl, -⟩ := h0
      congr 1
      refine ih t₂ h₁.2 h₂.2 (fun p => ?_)
      have hp := hf p
      simp only [withPrior, List.filter_cons] at hp ⊢
      split at hp
      · exact List.cons_injective hp
      · exact hp

theorem byPriorDesc_trans (a b c : T) :
    byPriorDesc a b = true → byPriorDesc b c = true → byPriorDesc a c = true := by
  simp only [byPriorDesc, decide_eq_true_eq]
  omega

theorem byPriorDesc_total (a b : T) : (byPriorDesc a b || byPriorDesc b a) = true := by
  simp only [byPriorDesc, Bool.or_eq_true, decide_eq_true_eq]
  omega

theorem stableSortDesc_pairwise (xs : List T) :
    (stableSortDesc xs).Pairwise (fun a b => Elem.prior a ≥ Elem.prior b) := by
  have h := List.sorted_mergeSort byPriorDesc_trans byPriorDesc_total xs
  refine h.imp ?_
  intro a b hab
  simpa [byPriorDesc] using hab

theorem withPrior_stableSortDesc (p : Int) (xs : List T) :
    withPrior p (stableSortDesc xs) = withPrior p xs := by
  have hsub : List.Sublist (withPrior p xs) (stableSortDesc xs) := by
    refine List.sublist_mergeSort byPriorDesc_trans byPriorDesc_total ?_
      (List.filter_sublist xs)
    refine List.pairwise_of_forall_mem_list (fun a ha b hb => ?_)
    simp only [withPrior, List.mem_filter, decide_eq_true_eq] at ha hb
    simp only [byPriorDesc, decide_eq_true_eq]
    omega
  have hsub2 : List.Sublist (withPrior p xs) (withPrior p (stableSortDesc xs)) := by
    have := hsub.filter (fun x => decide (Elem.prior x = p))
    simpa [withPrior] using this
  have hperm : (withPrior p (stableSortDesc xs)).Perm (withPrior p xs) :=
    (List.mergeSort_perm xs byPriorDesc).filter _
  exact (hsub2.eq_of_length hperm.length_eq.symm).symm

theorem popAll_pushAll_eq_stableSortDesc (xs : List T) :
    popAll (pushAll new xs) = stableSortDesc xs := by
  rw [popAll_eq]
  refine eq_of_pairwise_of_withPrior_eq _ _ (pushAll_I1 new xs new_I1)
    (stableSortDesc_pairwise xs) (fun p => ?_)
  rw [withPrior_pushAll p new xs new_I1, withPrior_stableSortDesc]
  simp [new, withPrior]

/-! ### The new node among the old ones -/

theorem prior_old (x : T) : Elem.prior (Marked.old x) = Elem.prior x := rfl

theorem prior_made (v : T) : Elem.prior (Marked.made v) = Elem.prior v := rfl

theorem walk_marked_data (v : T) (l : List T) :
    (walk (Marked.made v) (l.map Marked.old)).map Marked.data = walk v l := by
  induction l with
  | nil => simp [walk, Marked.made]
  | cons n rest ih =>
    by_cases h : Elem.prior n ≥ Elem.prior v
    · simp only [List.map_cons, walk, prior_old, prior_made, h, if_true, ih]
      rfl
    · simp only [List.map_cons, walk, prior_old, prior_made, h, if_false, List.map_map]
      simp [Marked.old, Marked.made, Function.comp_def]

theorem walk_marked_old (v : T) (l : List T) :
    (walk (Marked.made v) (l.map Marked.old)).filter (fun m => !m.fresh) = l.map Marked.old := by
  induction l with
  | nil => simp [walk, Marked.made]
  | cons n rest ih =>
    by_cases h : Elem.prior n ≥ Elem.prior v
    · simp only [List.map_cons, walk, prior_old, prior_made, h, if_true]
      rw [List.filter_cons_of_pos (by simp [Marked.old]), ih]
    · simp only [List.map_cons, walk, prior_old, prior_made, h, if_false]
      rw [List.filter_cons_of_neg (by simp [Marked.made]), ← List.map_cons,
        List.filter_eq_self.2]
      intro m hm
      obtain ⟨x, -, rfl⟩ := List.mem_map.1 hm
      simp [Marked.old]

theorem walk_marked_made (v : T) (l : List T) :
    (walk (Marked.made v) (l.map Marked.old)).filter (fun m => m.fresh) = [Marked.made v] := by
  have hold : ∀ l : List T, (l.map Marked.old).filter (fun m => m.fresh) = [] := by
    intro l
    simp [List.filter_eq_nil_iff, Marked.old]
  induction l with
  | nil => simp [walk, Marked.made]
  | cons n rest ih =>
    by_cases h : Elem.prior n ≥ Elem.prior v
    · simp only [List.map_cons, walk, prior_old, prior_made, h, if_true]
      rw [List.filter_cons_of_neg (by simp [Marked.old]), ih]
    · simp only [List.map_cons, walk, prior_old, prior_made, h, if_false]
      rw [List.filter_cons_of_pos (by simp [Marked.made]), ← List.map_cons, hold]

theorem walk_marked_tie (v : T) (l : List T) :
    ∃ back, walk (Marked.made v) (l.map Marked.old) =
        (l.takeWhile (fun x => decide (Elem.prior x = Elem.prior v))).map Marked.old ++ back ∧
      Marked.made v ∈ back := by
  induction l with
  | nil => exact ⟨[Marked.made v], by simp [walk]⟩
  | cons n rest ih =>
    by_cases h : Elem.prior n = Elem.prior v
    · obtain ⟨back, hb, hm⟩ := ih
      refine ⟨back, ?_, hm⟩
      have hge : Elem.prior n ≥ Elem.prior v := by omega
      simp [walk, prior_old, prior_made, hge, h, hb, List.takeWhile_cons]
    · refine ⟨walk (Marked.made v) ((n :: rest).map Marked.old), ?_, ?_⟩
      · simp [List.takeWhile_cons, h]
      · exact (mem_walk _ _ _).2 (Or.inl rfl)

/-! ### Counting pops -/

theorem popN_fst (n : Nat) (q : TPQueue T) :
    (popN n q).1 = q.head_.take n ++ List.replicate (n - q.head_.length) Elem.dflt := by
  induction n generalizing q with
  | zero => simp [popN]
  | succ n ih =>
    rcases q with ⟨_ | ⟨h, rest⟩⟩
    · simp [popN, pop, ih, List.replicate_succ]
    · simp [popN, pop, ih]

theorem popN_snd (n : Nat) (q : TPQueue T) : (popN n q).2.head_ = q.head_.drop n := by
  induction n generalizing q with
  | zero => simp [popN]
  | succ n ih =>
    rcases q with ⟨_ | ⟨h, rest⟩⟩
    · simp [popN, pop, ih]
    · simp [popN, pop, ih]

theorem push_perm (q : TPQueue T) (v : T) : (q.push v).head_.Perm (v :: q.head_) := by
  rw [push_head_eq]
  refine List.perm_middle.trans ?_
  rw [List.takeWhile_append_dropWhile]

theorem pushAll_perm (q : TPQueue T) (xs : List T) :
    (pushAll q xs).head_.Perm (q.head_ ++ xs) := by
  induction xs generalizing q with
  | nil => simp [pushAll]
  | cons x xs ih =>
    refine (ih (q.push x)).trans ?_
    refine ((push_perm q x).append_right xs).trans ?_
    have hm : (q.head_ ++ x :: xs).Perm (x :: (q.head_ ++ xs)) := List.perm_middle
    simpa using hm.symm

/-! ### Where `walk` puts the value in a sorted chain, and two pushes in a row -/

theorem walk_marked_split (v : T) (l : List T) :
    walk (Marked.made v) (l.map Marked.old) =
      (l.takeWhile (fun x => decide (Elem.prior x ≥ Elem.prior v))).map Marked.old ++
        Marked.made v ::
          (l.dropWhile (fun x => decide (Elem.prior x ≥ Elem.prior v))).map Marked.old := by
  induction l with
  | nil => simp [walk]
  | cons n rest ih =>
    by_cases h : Elem.prior n ≥ Elem.prior v
    · simp only [List.map_cons, walk, prior_old, prior_made, h, if_true, ih]
      simp [List.takeWhile_cons, List.dropWhile_cons, h]
    · simp only [List.map_cons, walk, prior_old, prior_made, h, if_false]
      simp [List.takeWhile_cons, List.dropWhile_cons, h]

theorem dropWhile_lt_of_pairwise (v : T) (l : List T)
    (hl : l.Pairwise (fun a b => Elem.prior a ≥ Elem.prior b)) :
    ∀ y ∈ l.dropWhile (fun x => decide (Elem.prior x ≥ Elem.prior v)),
      Elem.prior y < Elem.prior v := by
  induction l with
  | nil => simp
  | cons n rest ih =>
    rw [List.pairwise_cons] at hl
    by_cases h : Elem.prior n ≥ Elem.prior v
    · simpa [List.dropWhile_cons, h] using ih hl.2
    · intro y hy
      simp only [List.dropWhile_cons, h, decide_False, Bool.false_eq_true, if_false,
        List.mem_cons] at hy
      rcases hy with rfl | hy
      · omega
      · have := hl.1 y hy
        omega

theorem walk_walk_comm (a b : T) (l : List T) (hab : Elem.prior a ≠ Elem.prior b) :
    walk b (walk a l) = walk a (walk b l) := by
  induction l with
  | nil =>
    by_cases h : Elem.prior a ≥ Elem.prior b
    · have h2 : ¬ Elem.prior b ≥ Elem.prior a := by omega
      simp [walk, h, h2]
    · have h2 : Elem.prior b ≥ Elem.prior a := by omega
      simp [walk, h, h2]
  | cons n rest ih =>
    by_cases ha : Elem.prior n ≥ Elem.prior a <;> by_cases hb : Elem.prior n ≥ Elem.prior b
    · simp [walk, ha, hb, ih]
    · have h1 : Elem.prior b ≥ Elem.prior a := by omega
      simp [walk, ha, hb, h1]
    · have h1 : Elem.prior a ≥ Elem.prior b := by omega
      simp [walk, ha, hb, h1]
    · by_cases h : Elem.prior a ≥ Elem.prior b
      · have h2 : ¬ Elem.prior b ≥ Elem.prior a := by omega
        simp [walk, ha, hb, h, h2]
      · have h2 : Elem.prior b ≥ Elem.prior a := by omega
        simp [walk, ha, hb, h, h2]

theorem walk_walk_tie (a b : T) (l : List T) (hab : Elem.prior a = Elem.prior b) :
    walk b (walk a l) =
      l.takeWhile (fun x => decide (Elem.prior x ≥ Elem.prior a)) ++
        a :: b :: l.dropWhile (fun x => decide (Elem.prior x ≥ Elem.prior a)) := by
  induction l with
  | nil =>
    have h : Elem.prior a ≥ Elem.prior b := by omega
    simp [walk, h]
  | cons n rest ih =>
    by_cases ha : Elem.prior n ≥ Elem.prior a
    · have hb : Elem.prior n ≥ Elem.prior b := by omega
      simp [walk, ha, hb, ih, List.takeWhile_cons, List.dropWhile_cons]
    · have hb : ¬ Elem.prior n ≥ Elem.prior b := by omega
      have h : Elem.prior a ≥ Elem.prior b := by omega
      simp [walk, ha, hb, h, List.takeWhile_cons, List.dropWhile_cons]


end TPQueue

/-! ## Lemmas on the queues in memory -/

namespace Mem

theorem put_same {α : Type} (f : Nat → α) (a : Nat) (v : α) : put f a v a = v := by
  simp [put]

theorem put_ne {α : Type} (f : Nat → α) (a x : Nat) (v : α) (h : x ≠ a) :
    put f a v x = f x := by
  simp [put, h]

theorem IsChain.congr {T : Type} {m m' : Mem T} {p : Option Nat} {l : List (Nat × T)}
    (h : m.IsChain p l) (hn : ∀ x ∈ l.map Prod.fst, m'.node x = m.node x) :
    m'.IsChain p l := by
  induction l generalizing p with
  | nil => exact h
  | cons x rest ih =>
    obtain ⟨hp, nx, hx, hr⟩ := h
    refine ⟨hp, nx, ?_, ih hr (fun y hy => hn y ?_)⟩
    · rw [hn x.1 (by simp)]
      exact hx
    · simp only [List.map_cons, List.mem_cons]
      exact Or.inr hy

theorem Owns.frame {T : Type} {m m' : Mem T} {this : Nat} {l : List (Nat × T)}
    (h : m.Owns this l) (hh : m'.head_ this = m.head_ this)
    (hn : ∀ x ∈ l.map Prod.fst, m'.node x = m.node x) (hb : m.brk ≤ m'.brk) :
    m'.Owns this l := by
  obtain ⟨hc, hd, hlt⟩ := h
  refine ⟨?_, hd, fun x hx => Nat.lt_of_lt_of_le (hlt x hx) hb⟩
  rw [hh]
  exact hc.congr hn

theorem Moves.refl {T : Type} {m : Mem T} {this : Nat} {l : List (Nat × T)}
    (h : m.Owns this l) : m.Moves m this l l :=
  ⟨h, Nat.le_refl _, fun _ _ => rfl, fun _ _ _ => rfl, fun _ hx => Or.inl hx⟩

theorem Moves.trans {T : Type} {m m₁ m₂ : Mem T} {this : Nat} {l l₁ l₂ : List (Nat × T)}
    (h₁ : m.Moves m₁ this l l₁) (h₂ : m₁.Moves m₂ this l₁ l₂) : m.Moves m₂ this l l₂ := by
  obtain ⟨-, hb₁, hh₁, hn₁, ha₁⟩ := h₁
  obtain ⟨ho₂, hb₂, hh₂, hn₂, ha₂⟩ := h₂
  refine ⟨ho₂, Nat.le_trans hb₁ hb₂, fun o ho => (hh₂ o ho).trans (hh₁ o ho),
    fun y hy hlt => ?_, fun x hx => ?_⟩
  · rw [hn₂ y ?_ (Nat.lt_of_lt_of_le hlt hb₁), hn₁ y hy hlt]
    intro hy₁
    rcases ha₁ y hy₁ with h | h
    · exact hy h
    · omega
  · rcases ha₂ x hx with h | h
    · exact ha₁ x h
    · exact Or.inr (Nat.le_trans hb₁ h)

theorem Sep.symm {T : Type} {m : Mem T} {a b : Nat} {la lb : List (Nat × T)}
    (h : m.Sep a b la lb) : m.Sep b a lb la :=
  ⟨fun hba => h.1 hba.symm, h.2.2.1, h.2.1, fun x hx hxa => h.2.2.2 x hxa hx⟩

/-- A call on `a` leaves the chain of `b` alone, and the two chains stay disjoint. -/
theorem Sep.moves {T : Type} {m m' : Mem T} {a b : Nat} {la la' lb : List (Nat × T)}
    (h : m.Sep a b la lb) (hm : m.Moves m' a la la') : m'.Sep a b la' lb := by
  obtain ⟨hab, -, hob, hdis⟩ := h
  obtain ⟨hoa, hbrk, hh, hn, ha⟩ := hm
  refine ⟨hab, hoa, hob.frame (hh b (fun e => hab e.symm)) (fun x hx => ?_) hbrk,
    fun x hx hxb => ?_⟩
  · exact hn x (fun hxa => hdis x hxa hx) (hob.2.2 x hx)
  · rcases ha x hx with h | h
    · exact hdis x h hxb
    · have := hob.2.2 x hxb
      omega

theorem empty_of_owns {T : Type} {m : Mem T} {this : Nat} {l : List (Nat × T)} (h : m.Owns this l) :
    m.empty this = l.isEmpty := by
  cases l with
  | nil =>
    have hp : m.head_ this = none := h.1
    simp [empty, hp]
  | cons x rest =>
    have hp : m.head_ this = some x.1 := h.1.1
    simp [empty, hp]

theorem Owns.length_le {T : Type} {m : Mem T} {this : Nat} {l : List (Nat × T)}
    (h : m.Owns this l) : l.length ≤ m.brk := by
  have hsub : (l.map Prod.fst).toFinset ⊆ Finset.range m.brk := by
    intro x hx
    simp only [List.mem_toFinset] at hx
    exact Finset.mem_range.2 (h.2.2 x hx)
  have hc := Finset.card_le_card hsub
  rw [List.toFinset_card_of_nodup h.2.1] at hc
  simpa using hc

theorem copies_fst {T : Type} (n : Nat) (l : List (Nat × T)) :
    (copies n l).map Prod.fst = List.range' n l.length := by
  induction l generalizing n with
  | nil => rfl
  | cons x rest ih => simp [copies, ih, List.range'_succ]

theorem copies_snd {T : Type} (n : Nat) (l : List (Nat × T)) :
    (copies n l).map Prod.snd = l.map Prod.snd := by
  induction l generalizing n with
  | nil => rfl
  | cons x rest ih => simp [copies, ih]

theorem copyLoop_none {T : Type} (fuel : Nat) (m : Mem T) (dst : Nat) :
    copyLoop fuel m dst none = some m := by
  cases fuel <;> rfl

theorem copyLoop_spec {T : Type} (fuel : Nat) (m : Mem T) (dst : Nat) (d : T)
    (src : Option Nat) {ls : List (Nat × T)}
    (hc : m.IsChain src ls) (hlt : ∀ a ∈ ls.map Prod.fst, a < m.brk ∧ a ≠ dst)
    (hdst : m.node dst = some ⟨d, none⟩) (hdlt : dst < m.brk) (hf : ls.length ≤ fuel) :
    ∃ m', copyLoop fuel m dst src = some m' ∧
      m'.IsChain (some dst) ((dst, d) :: copies m.brk ls) ∧
      m'.brk = m.brk + ls.length ∧ m'.head_ = m.head_ ∧
      (∀ y, y < m.brk → y ≠ dst → m'.node y = m.node y) := by
  induction ls generalizing m dst d src fuel with
  | nil =>
    have hs : src = none := hc
    subst hs
    exact ⟨m, copyLoop_none fuel m dst, ⟨rfl, none, hdst, rfl⟩, rfl, rfl, fun _ _ _ => rfl⟩
  | cons x rest ih =>
    obtain ⟨fuel, rfl⟩ : ∃ f, fuel = f + 1 := ⟨fuel - 1, by simp at hf; omega⟩
    obtain ⟨hs, nx, hx, hr⟩ := hc
    subst hs
    have hdb : dst ≠ m.brk := by omega
    have hrest : ∀ a ∈ rest.map Prod.fst, a < m.brk ∧ a ≠ dst := fun a ha =>
      hlt a (List.mem_cons_of_mem _ ha)
    obtain ⟨m', hcl, hch, hbrk, hh, hfr⟩ :=
      ih fuel
        { m with
          node := put (put m.node m.brk (some ⟨x.2, none⟩)) dst (some ⟨d, some m.brk⟩),
          brk := m.brk + 1 }
        m.brk x.2 nx
        (hr.congr (fun y hy => by
          have := hrest y hy
          have h1 : y ≠ m.brk := by omega
          simp [put, h1, this.2]))
        (fun a ha => by
          have := hrest a ha
          simp only
          omega)
        (by simp [put, hdb.symm]) (by simp) (by simpa using hf)
    refine ⟨m', ?_, ?_, ?_, hh, fun y hy hyd => ?_⟩
    · simp only [copyLoop, hx, alloc, setNext, put, hdb, if_false, hdst]
      exact hcl
    · refine ⟨rfl, some m.brk, ?_, hch⟩
      rw [hfr dst (by simp; omega) hdb]
      simp [put]
    · simp only [hbrk, List.length_cons]
      omega
    · have h1 : y ≠ m.brk := by omega
      rw [hfr y (by simp; omega) h1]
      simp [put, h1, hyd]

theorem CopyFrom_spec {T : Type} {m : Mem T} {this other : Nat} {l : List (Nat × T)}
    (ho : m.Owns other l) (ht : m.Owns this []) :
    ∃ m', m.CopyFrom this other = some m' ∧ m.Moves m' this [] (copies m.brk l) ∧
      m'.brk = m.brk + l.length := by
  cases l with
  | nil =>
    have hp : m.head_ other = none := ho.1
    exact ⟨m, by simp [CopyFrom, hp], Moves.refl ht, rfl⟩
  | cons x rest =>
    have hlen := ho.length_le
    obtain ⟨⟨hp, nx, hx, hr⟩, hd, hlt⟩ := ho
    obtain ⟨m', hcl, hch, hbrk, hh, hfr⟩ :=
      copyLoop_spec m.brk
        { m with
          node := put m.node m.brk (some ⟨x.2, none⟩),
          brk := m.brk + 1, head_ := put m.head_ this (some m.brk) }
        m.brk x.2 nx
        (hr.congr (fun y hy => by
          have := hlt y (List.mem_cons_of_mem _ hy)
          have h1 : y ≠ m.brk := by omega
          simp [put, h1]))
        (fun a ha => by
          have := hlt a (List.mem_cons_of_mem _ ha)
          simp only
          omega)
        (by simp [put]) (by simp) (by simp at hlen; omega)
    refine ⟨m', ?_, ⟨⟨?_, ?_, fun y hy => ?_⟩, ?_, fun o ho => ?_, fun y _ hy => ?_,
      fun y hy => ?_⟩, ?_⟩
    · simp only [CopyFrom, hp, hx, alloc]
      exact hcl
    · rw [hh]
      simpa [put, copies] using hch
    · rw [copies_fst]
      exact List.nodup_range' _ _
    · rw [copies_fst, List.mem_range'_1] at hy
      rw [hbrk]
      simp only [List.length_cons] at hy ⊢
      omega
    · rw [hbrk]
      simp only
      omega
    · rw [hh]
      simp [put, ho]
    · have h1 : y ≠ m.brk := by omega
      rw [hfr y (by simp; omega) h1]
      simp [put, h1]
    · rw [copies_fst, List.mem_range'_1] at hy
      exact Or.inr hy.1
    · rw [hbrk]
      simp only [List.length_cons]
      omega

theorem copyConstruct_spec {T : Type} {m : Mem T} {a b : Nat} {la : List (Nat × T)} (hab : a ≠ b)
    (ha : m.Owns a la) :
    ∃ m' lb', m.copyConstruct b a = some m' ∧ m'.Sep a b la lb' ∧
      lb'.map Prod.snd = la.map Prod.snd := by
  have ha' : (m.construct b).Owns a la :=
    ha.frame (by simp [construct, put, hab]) (fun _ _ => rfl) (Nat.le_refl _)
  have hb' : (m.construct b).Owns b [] := ⟨by simp [construct, put, IsChain], by simp, by simp⟩
  have hsep : (m.construct b).Sep b a [] la := ⟨fun e => hab e.symm, hb', ha', by simp⟩
  obtain ⟨m', hc, hm, -⟩ := CopyFrom_spec ha' hb'
  exact ⟨m', _, hc, (hsep.moves hm).symm, copies_snd _ _⟩

variable {T : Type} [Elem T]

theorem pop_spec {m : Mem T} {this : Nat} {l : List (Nat × T)} (h : m.Owns this l) :
    ∃ m', m.pop this = some ((TPQueue.pop ⟨l.map Prod.snd⟩).1, m') ∧
      m.Moves m' this l l.tail ∧ m'.brk = m.brk ∧
      (∀ x, l.head? = some x → m'.node x.1 = none) ∧
      (∀ y, (∀ x, l.head? = some x → y ≠ x.1) → m'.node y = m.node y) := by
  cases l with
  | nil =>
    have hp : m.head_ this = none := h.1
    refine ⟨m, by simp [pop, hp, TPQueue.pop], Moves.refl h, rfl, by simp, fun _ _ => rfl⟩
  | cons x rest =>
    obtain ⟨⟨hp, nx, hx, hr⟩, hd, hlt⟩ := h
    simp only [List.map_cons, List.nodup_cons] at hd
    refine ⟨{ m with head_ := put m.head_ this nx, node := put m.node x.1 none }, ?_,
      ⟨⟨?_, hd.2, fun y hy => hlt y (List.mem_cons_of_mem _ hy)⟩,
        Nat.le_refl _, fun o ho => put_ne _ _ _ _ ho, fun y hy _ => ?_,
        fun y hy => Or.inl (List.mem_cons_of_mem _ hy)⟩,
      rfl, ?_, fun y hy => put_ne _ _ _ _ (hy x rfl)⟩
    · simp [pop, hp, hx, TPQueue.pop]
    · simp only [put_same, List.tail_cons]
      refine hr.congr (fun y hy => put_ne _ _ _ _ ?_)
      rintro rfl
      exact hd.1 hy
    · refine put_ne _ _ _ _ ?_
      rintro rfl
      exact hy (by simp)
    · intro x' hx'
      simp only [List.head?_cons, Option.some.injEq] at hx'
      subst hx'
      exact put_same _ _ _

theorem clearLoop_spec (fuel : Nat) {m : Mem T} {this : Nat} {l : List (Nat × T)}
    (h : m.Owns this l) (hf : l.length ≤ fuel) :
    ∃ m', clearLoop fuel m this = some (l.length, m') ∧ m.Moves m' this l [] ∧
      m'.brk = m.brk ∧ (∀ x ∈ l.map Prod.fst, m'.node x = none) ∧
      (∀ y, y ∉ l.map Prod.fst → m'.node y = m.node y) := by
  induction l generalizing m fuel with
  | nil =>
    have he : m.empty this = true := by rw [empty_of_owns h]; rfl
    refine ⟨m, ?_, Moves.refl h, rfl, by simp, fun _ _ => rfl⟩
    cases fuel <;> simp [clearLoop, he]
  | cons x rest ih =>
    have he : m.empty this = false := by rw [empty_of_owns h]; rfl
    obtain ⟨m₁, hpop, hmv, hbrk, hdead, hfr⟩ := pop_spec h
    obtain ⟨fuel, rfl⟩ : ∃ f, fuel = f + 1 := ⟨fuel - 1, by simp at hf; omega⟩
    have hd : x.1 ∉ rest.map Prod.fst := (List.nodup_cons.1 h.2.1).1
    obtain ⟨m', hcl, hmv', hbrk', hdead', hfr'⟩ :=
      ih fuel hmv.1 (by simpa using hf)
    refine ⟨m', ?_, hmv.trans hmv', hbrk'.trans hbrk, fun y hy => ?_, fun y hy => ?_⟩
    · simp [clearLoop, he, hpop, hcl]
    · simp only [List.map_cons, List.mem_cons] at hy
      by_cases hyr : y ∈ rest.map Prod.fst
      · exact hdead' y hyr
      · rcases hy with rfl | hy
        · rw [hfr' _ hyr]
          exact hdead x rfl
        · exact absurd hy hyr
    · simp only [List.map_cons, List.mem_cons, not_or] at hy
      rw [hfr' y hy.2]
      refine hfr y (fun x' hx' => ?_)
      simp only [List.head?_cons, Option.some.injEq] at hx'
      subst hx'
      exact hy.1

theorem Clear_spec {m : Mem T} {this : Nat} {l : List (Nat × T)} (h : m.Owns this l) :
    ∃ m', m.Clear this = some (l.length, m') ∧ m.Moves m' this l [] ∧
      m'.brk = m.brk ∧ (∀ x ∈ l.map Prod.fst, m'.node x = none) ∧
      (∀ y, y ∉ l.map Prod.fst → m'.node y = m.node y) :=
  clearLoop_spec m.brk h h.length_le

theorem popAllLoop_spec (fuel : Nat) {m : Mem T} {this : Nat} {l : List (Nat × T)}
    (h : m.Owns this l) (hf : l.length ≤ fuel) :
    ∃ m', popAllLoop fuel m this = some (l.map Prod.snd, m') := by
  induction l generalizing m fuel with
  | nil =>
    have he : m.empty this = true := by rw [empty_of_owns h]; rfl
    refine ⟨m, ?_⟩
    cases fuel <;> simp [popAllLoop, he]
  | cons x rest ih =>
    have he : m.empty this = false := by rw [empty_of_owns h]; rfl
    obtain ⟨m₁, hpop, hmv, -⟩ := pop_spec h
    obtain ⟨fuel, rfl⟩ : ∃ f, fuel = f + 1 := ⟨fuel - 1, by simp at hf; omega⟩
    obtain ⟨m', hcl⟩ := ih fuel hmv.1 (by simpa using hf)
    refine ⟨m', ?_⟩
    simp [popAllLoop, he, hpop, hcl, TPQueue.pop]

theorem popAll_spec {m : Mem T} {this : Nat} {l : List (Nat × T)} (h : m.Owns this l) :
    m.popAll this = some (l.map Prod.snd) := by
  obtain ⟨m', hm'⟩ := popAllLoop_spec m.brk h h.length_le
  simp [popAll, hm']

theorem prior_pair (x : Nat × T) : Elem.prior x = Elem.prior x.2 := rfl

theorem walk_linkAfter_spec (fuel : Nat) {m : Mem T} (prev : Nat) (d : T)
    {rest : List (Nat × T)} (new_node : Nat) (v : T)
    (hc : m.IsChain (some prev) ((prev, d) :: rest))
    (hd : (((prev, d) :: rest).map Prod.fst).Nodup)
    (hnew : m.node new_node = some ⟨v, none⟩)
    (hnn : new_node ∉ ((prev, d) :: rest).map Prod.fst)
    (hf : rest.length < fuel) :
    ∃ prev' m', walk fuel m prev v = some prev' ∧ m.linkAfter new_node prev' = some m' ∧
      m'.IsChain (some prev) ((prev, d) :: TPQueue.walk (new_node, v) rest) ∧
      m'.brk = m.brk ∧ m'.head_ = m.head_ ∧
      (∀ y, y ∉ ((prev, d) :: rest).map Prod.fst → y ≠ new_node → m'.node y = m.node y) := by
  induction rest generalizing prev d fuel with
  | nil =>
    obtain ⟨fuel, rfl⟩ : ∃ f, fuel = f + 1 := ⟨fuel - 1, by simp at hf; omega⟩
    obtain ⟨-, nx, hx, hnx⟩ := hc
    have hnx : nx = none := hnx
    subst hnx
    simp only at hx
    have hne : prev ≠ new_node := by
      rintro rfl
      exact hnn (by simp)
    refine ⟨prev,
      { m with
        node := put (put m.node new_node (some ⟨v, none⟩)) prev (some ⟨d, some new_node⟩) },
      by simp [walk, hx], by simp [linkAfter, setNext, hx, hnew, put, hne],
      ?_, rfl, rfl, fun y hy hyn => ?_⟩
    · refine ⟨rfl, some new_node, by simp [put], ?_⟩
      refine ⟨rfl, none, ?_, rfl⟩
      simp [put, hne.symm]
    · simp only [List.map_cons, List.map_nil, List.mem_singleton] at hy
      simp [put, hy, hyn]
  | cons x rest ih =>
    obtain ⟨fuel, rfl⟩ : ∃ f, fuel = f + 1 := ⟨fuel - 1, by omega⟩
    obtain ⟨-, nx, hx, hr⟩ := hc
    obtain ⟨hnx, nx₂, hx₂, hr₂⟩ := hr
    subst hnx
    simp only at hx
    simp only [List.map_cons, List.nodup_cons, List.mem_cons, not_or] at hd hnn
    have hne : prev ≠ new_node := fun e => hnn.1 e.symm
    have hne₂ : x.1 ≠ new_node := fun e => hnn.2.1 e.symm
    by_cases hp : Elem.prior x.2 ≥ Elem.prior v
    · have hc' : m.IsChain (some x.1) ((x.1, x.2) :: rest) := ⟨rfl, nx₂, hx₂, hr₂⟩
      obtain ⟨prev', m', hw, hl, hch, hbrk, hh, hfr⟩ :=
        ih fuel x.1 x.2 hc'
          (by simpa using hd.2) (by simpa using hnn.2) (by simpa using hf)
      refine ⟨prev', m', by simp [walk, hx, hx₂, hp, hw], hl, ?_, hbrk, hh,
        fun y hy hyn => hfr y ?_ hyn⟩
      · have hw' : TPQueue.walk (new_node, v) (x :: rest) =
            x :: TPQueue.walk (new_node, v) rest := by
          simp [TPQueue.walk, prior_pair, hp]
        rw [hw']
        refine ⟨rfl, some x.1, ?_, hch⟩
        rw [hfr prev ?_ hne]
        · exact hx
        · simp only [List.map_cons, List.mem_cons, not_or]
          exact ⟨hd.1.1, hd.1.2⟩
      · simp only [List.map_cons, List.mem_cons, not_or] at hy ⊢
        exact hy.2
    · have hw' : TPQueue.walk (new_node, v) (x :: rest) = (new_node, v) :: x :: rest := by
        simp [TPQueue.walk, prior_pair, hp]
      rw [hw']
      refine ⟨prev,
        { m with
          node := put (put m.node new_node (some ⟨v, some x.1⟩)) prev
            (some ⟨d, some new_node⟩) },
        by simp [walk, hx, hx₂, hp],
        by simp [linkAfter, setNext, hx, hnew, put, hne], ?_, rfl, rfl, fun y hy hyn => ?_⟩
      · refine ⟨rfl, some new_node, by simp [put], rfl, some x.1, by simp [put, hne.symm],
          rfl, nx₂, ?_, ?_⟩
        · have hne₃ : x.1 ≠ prev := fun e => hd.1.1 e.symm
          simp only [put, hne₂, hne₃, if_false]
          exact hx₂
        · refine hr₂.congr (fun y hy => ?_)
          have h1 : y ≠ prev := by
            rintro rfl
            exact hd.1.2 hy
          have h2 : y ≠ new_node := by
            rintro rfl
            exact hnn.2.2 hy
          simp [put, h1, h2]
      · simp only [List.map_cons, List.mem_cons, not_or] at hy
        simp [put, hy.1, hyn]

theorem walk_pair_perm (x : Nat × T) (l : List (Nat × T)) :
    ((TPQueue.walk x l).map Prod.fst).Perm (x.1 :: l.map Prod.fst) := by
  have h := TPQueue.push_perm ⟨l⟩ x
  rw [TPQueue.push_head_eq_walk] at h
  simpa using h.map Prod.fst

theorem push_spec {m : Mem T} {this : Nat} {l : List (Nat × T)} (v : T)
    (h : m.Owns this l) :
    ∃ m', m.push this v = some m' ∧ m.Moves m' this l (TPQueue.walk (m.brk, v) l) ∧
      m'.brk = m.brk + 1 := by
  have hperm := walk_pair_perm (m.brk, v) l
  have hfresh : m.brk ∉ l.map Prod.fst := fun hx => Nat.lt_irrefl _ (h.2.2 _ hx)
  suffices hs : ∃ m', m.push this v = some m' ∧
      m'.IsChain (m'.head_ this) (TPQueue.walk (m.brk, v) l) ∧ m'.brk = m.brk + 1 ∧
      (∀ o, o ≠ this → m'.head_ o = m.head_ o) ∧
      (∀ y, y ∉ l.map Prod.fst → y < m.brk → m'.node y = m.node y) by
    obtain ⟨m', hp, hc, hb, hh, hn⟩ := hs
    refine ⟨m', hp, ⟨⟨hc, ?_, fun x hx => ?_⟩, by omega, hh, hn, fun x hx => ?_⟩, hb⟩
    · exact hperm.nodup_iff.2 (List.nodup_cons.2 ⟨hfresh, h.2.1⟩)
    · rcases List.mem_cons.1 (hperm.mem_iff.1 hx) with rfl | hx
      · omega
      · have := h.2.2 x hx
        omega
    · rcases List.mem_cons.1 (hperm.mem_iff.1 hx) with rfl | hx
      · exact Or.inr (Nat.le_refl _)
      · exact Or.inl hx
  cases l with
  | nil =>
    have hp : m.head_ this = none := h.1
    refine ⟨{ m with
        node := put (put m.node m.brk (some ⟨v, none⟩)) m.brk (some ⟨v, none⟩),
        brk := m.brk + 1, head_ := put m.head_ this (some m.brk) },
      by simp [push, alloc, linkHead, setNext, put, hp], ?_, rfl,
      fun o ho => put_ne _ _ _ _ ho, fun y _ hy => ?_⟩
    · exact ⟨by simp [put], none, by simp [put], rfl⟩
    · have : y ≠ m.brk := by omega
      simp [put, this]
  | cons x rest =>
    obtain ⟨⟨hp, nx, hx, hr⟩, hd, hlt⟩ := h
    have hxb : x.1 ≠ m.brk := by
      have := hlt x.1 (by simp)
      omega
    by_cases hv : Elem.prior v > Elem.prior x.2
    · have hw : TPQueue.walk (m.brk, v) (x :: rest) = (m.brk, v) :: x :: rest := by
        have : ¬ Elem.prior x.2 ≥ Elem.prior v := by omega
        simp [TPQueue.walk, prior_pair, this]
      rw [hw]
      refine ⟨{ m with
          node := put (put m.node m.brk (some ⟨v, none⟩)) m.brk (some ⟨v, some x.1⟩),
          brk := m.brk + 1, head_ := put m.head_ this (some m.brk) },
        by simp [push, alloc, linkHead, setNext, put, hp, hx, hxb, hv], ?_, rfl,
        fun o ho => put_ne _ _ _ _ ho, fun y _ hy => ?_⟩
      · refine ⟨by simp [put], some x.1, by simp [put], rfl, nx, ?_, ?_⟩
        · simp only [put, hxb, if_false]
          exact hx
        · refine hr.congr (fun y hy => ?_)
          have : y ≠ m.brk := by
            have := hlt y (List.mem_cons_of_mem _ hy)
            omega
          simp [put, this]
      · have : y ≠ m.brk := by omega
        simp [put, this]
    · have hge : Elem.prior x.2 ≥ Elem.prior v := by omega
      have hw : TPQueue.walk (m.brk, v) (x :: rest) =
          x :: TPQueue.walk (m.brk, v) rest := by
        simp [TPQueue.walk, prior_pair, hge]
      rw [hw]
      have hc₁ : (m.alloc v).2.IsChain (some x.1) ((x.1, x.2) :: rest) := by
        have hc : m.IsChain (some x.1) ((x.1, x.2) :: rest) := ⟨rfl, nx, hx, hr⟩
        refine hc.congr (fun y hy => ?_)
        have : y ≠ m.brk := by
          have := hlt y (by simpa using hy)
          omega
        simp [alloc, put, this]
      have hlen : rest.length < (m.alloc v).2.brk := by
        have := Owns.length_le (⟨⟨hp, nx, hx, hr⟩, hd, hlt⟩ : m.Owns this (x :: rest))
        simp [alloc] at this ⊢
        omega
      obtain ⟨prev', m', hwalk, hlink, hch, hbrk, hh, hfr⟩ :=
        walk_linkAfter_spec (m.alloc v).2.brk x.1 x.2 m.brk v hc₁
          (by simpa using hd) (by simp [alloc, put]) (by simpa using hfresh) hlen
      refine ⟨m', ?_, ?_, by simp [hbrk, alloc], fun o _ => by simp [hh, alloc],
        fun y hy hyb => ?_⟩
      · have h1 : (m.alloc v).2.head_ this = some x.1 := by simp [alloc, hp]
        have h2 : (m.alloc v).2.node x.1 = some ⟨x.2, nx⟩ := by
          simp only [alloc, put, hxb, if_false]
          exact hx
        have h3 : (m.alloc v).1 = m.brk := rfl
        simp only [push, h1, h2, hv, if_false, hwalk, h3, hlink]
      · have : m'.head_ this = some x.1 := by simp [hh, alloc, hp]
        rw [this]
        exact hch
      · have : y ≠ m.brk := by omega
        rw [hfr y (by simpa using hy) this]
        simp [alloc, put, this]

theorem walk_pair_snd (x : Nat × T) (l : List (Nat × T)) :
    (TPQueue.walk x l).map Prod.snd = TPQueue.walk x.2 (l.map Prod.snd) := by
  induction l with
  | nil => simp [TPQueue.walk]
  | cons n rest ih =>
    by_cases h : Elem.prior n.2 ≥ Elem.prior x.2
    · simp [TPQueue.walk, prior_pair, h, ih]
    · simp [TPQueue.walk, prior_pair, h]

theorem step_spec {m : Mem T} {this : Nat} {l : List (Nat × T)} (op : Op T)
    (h : m.Owns this l) :
    ∃ m' l', m.step this op = some m' ∧ m.Moves m' this l l' ∧
      l'.map Prod.snd = (TPQueue.step ⟨l.map Prod.snd⟩ op).head_ := by
  cases op with
  | push v =>
    obtain ⟨m', hp, hm, -⟩ := push_spec v h
    refine ⟨m', _, hp, hm, ?_⟩
    rw [walk_pair_snd]
    simp [TPQueue.step, TPQueue.push_head_eq_walk]
  | pop =>
    obtain ⟨m', hp, hm, -⟩ := pop_spec h
    refine ⟨m', _, by simp [step, hp], hm, ?_⟩
    cases l <;> simp [TPQueue.step, TPQueue.pop]

theorem run_spec {m : Mem T} {this : Nat} {l : List (Nat × T)} (ops : List (Op T))
    (h : m.Owns this l) :
    ∃ m' l', m.run this ops = some m' ∧ m.Moves m' this l l' ∧
      l'.map Prod.snd = (TPQueue.run ⟨l.map Prod.snd⟩ ops).head_ := by
  induction ops generalizing m l with
  | nil => exact ⟨m, l, rfl, Moves.refl h, rfl⟩
  | cons op ops ih =>
    obtain ⟨m₁, l₁, hs, hm₁, hd₁⟩ := step_spec op h
    obtain ⟨m₂, l₂, hr, hm₂, hd₂⟩ := ih hm₁.1
    refine ⟨m₂, l₂, by simp [run, hs, hr], hm₁.trans hm₂, ?_⟩
    rw [hd₂, hd₁]
    simp [TPQueue.run]

theorem copyAssign_spec {m : Mem T} {a b : Nat} {la lb : List (Nat × T)}
    (h : m.Sep a b la lb) :
    ∃ m' lb', m.copyAssign b a = some m' ∧ m'.Sep a b la lb' ∧
      lb'.map Prod.snd = la.map Prod.snd ∧ ∀ x ∈ lb.map Prod.fst, m'.node x = none := by
  obtain ⟨m₁, hcl, hm₁, hbrk, hdead, -⟩ := Clear_spec h.2.2.1
  have hsep₁ := h.symm.moves hm₁
  obtain ⟨m', hc, hm, -⟩ := CopyFrom_spec hsep₁.2.2.1 hsep₁.2.1
  refine ⟨m', _, ?_, (hsep₁.moves hm).symm, copies_snd _ _, fun x hx => ?_⟩
  · have hne : b ≠ a := fun e => h.1 e.symm
    simp [copyAssign, hne, hcl, hc]
  · rw [hm.2.2.2.1 x (by simp) ?_]
    · exact hdead x hx
    · rw [hbrk]
      exact h.2.2.1.2.2 x hx

theorem steal_spec {T : Type} {m : Mem T} {a b : Nat} {la : List (Nat × T)} (hab : a ≠ b)
    (ha : m.Owns a la) :
    (m.steal b a).Owns b la ∧ (m.steal b a).head_ a = none ∧
      (m.steal b a).node = m.node ∧ (m.steal b a).brk = m.brk := by
  refine ⟨⟨?_, ha.2.1, ha.2.2⟩, by simp [steal, put], rfl, rfl⟩
  have hh : (m.steal b a).head_ b = m.head_ a := by
    have hne : b ≠ a := fun e => hab e.symm
    simp [steal, put, hne]
  rw [hh]
  exact ha.1.congr (fun _ _ => rfl)

theorem Clear_of_empty (m : Mem T) (this : Nat) (h : m.head_ this = none) :
    m.Clear this = some (0, m) := by
  unfold Clear
  cases m.brk <;> simp [clearLoop, empty, h]

theorem demo_sep :
    demo.Sep 0 1 [(0, SYM.mk 'y' 9), (2, SYM.mk 'x' 3)] [(1, SYM.mk 'w' 1)] := by
  refine ⟨by decide, ⟨?_, by decide, by decide⟩, ⟨?_, by decide, by decide⟩, by decide⟩
  · exact ⟨rfl, some 2, rfl, rfl, none, rfl, rfl⟩
  · exact ⟨rfl, none, rfl, rfl⟩

/-- Calls on `a` do not change what `b` returns afterwards, and act on `a` as on a list. -/
theorem independent_of_sep {m : Mem T} {a b : Nat} {la lb : List (Nat × T)}
    (h : m.Sep a b la lb) (ops : List (Op T)) :
    ∃ m', m.run a ops = some m' ∧ m'.popAll b = m.popAll b ∧
      m'.popAll a = some (TPQueue.run ⟨la.map Prod.snd⟩ ops).head_ := by
  obtain ⟨m', la', hr, hm, hd⟩ := run_spec ops h.2.1
  have hsep := h.moves hm
  refine ⟨m', hr, ?_, ?_⟩
  · rw [popAll_spec hsep.2.2.1, popAll_spec h.2.2.1]
  · rw [popAll_spec hsep.2.1, hd]

theorem moveAssign_spec {m : Mem T} {a b : Nat} {la lb : List (Nat × T)}
    (h : m.Sep a b la lb) :
    ∃ m', m.moveAssign b a = some m' ∧ m'.Owns b la ∧ m'.head_ a = none ∧
      ∀ x ∈ lb.map Prod.fst, m'.node x = none := by
  obtain ⟨m₁, hcl, hm₁, -, hdead, -⟩ := Clear_spec h.2.2.1
  have hsep₁ := h.symm.moves hm₁
  obtain ⟨hown, hhead, hnode, -⟩ := steal_spec h.1 hsep₁.2.2.1
  refine ⟨m₁.steal b a, ?_, hown, hhead, fun x hx => ?_⟩
  · have hne : b ≠ a := fun e => h.1 e.symm
    simp [moveAssign, hne, hcl]
  · rw [hnode]
    exact hdead x hx

end Mem

namespace TPQueue

variable {T : Type} [Elem T]

/-! ## The claims -/

/-- C1: for every sequence `xs` pushed one by one onto a freshly constructed queue, popping
until the queue reports empty returns exactly the pushed elements, each as often as it was
pushed (so as many values as were pushed), and they come in non-increasing order of `prior`:
every returned value has a priority at most that of every value returned before it, and in
particular at most that of the one returned just before it. -/
theorem pop_order_non_increasing (xs : List T) :
    (popAll (pushAll new xs)).Perm xs ∧
    (popAll (pushAll new xs)).length = xs.length ∧
    (popAll (pushAll new xs)).Pairwise (fun a b => Elem.prior b ≤ Elem.prior a) ∧
    (popAll (pushAll new xs)).Chain' (fun a b => Elem.prior b ≤ Elem.prior a) := by
  have hp : (popAll (pushAll new xs)).Perm xs := by
    rw [popAll_eq]
    simpa [new] using pushAll_perm (new : TPQueue T) xs
  have h : (popAll (pushAll new xs)).Pairwise (fun a b => Elem.prior b ≤ Elem.prior a) := by
    rw [popAll_eq]
    exact pushAll_I1 new xs new_I1
  exact ⟨hp, hp.length_eq, h, h.chain'⟩

/-- C2: for every sequence `xs` pushed one by one onto a freshly constructed queue, popping
until empty returns the stable sort of `xs` by descending priority; for every priority `p` the
returned values of priority `p` are those of `xs`, in the order they were pushed; two values
of equal priority pushed in the order `a`, `b` are popped in the order `a`, `b`, as are
A(prior=5) and B(prior=5). -/
theorem pop_order_stable_sort (xs : List T) :
    popAll (pushAll new xs) = stableSortDesc xs ∧
    (∀ p, withPrior p (popAll (pushAll new xs)) = withPrior p xs) ∧
    (∀ a b : T, Elem.prior a = Elem.prior b → popAll (pushAll new [a, b]) = [a, b]) ∧
    popAll (pushAll new [SYM.mk 'A' 5, SYM.mk 'B' 5]) = [SYM.mk 'A' 5, SYM.mk 'B' 5] := by
  refine ⟨popAll_pushAll_eq_stableSortDesc xs, fun p => ?_, fun a b hab => ?_, ?_⟩
  · rw [popAll_eq, withPrior_pushAll p new xs new_I1]
    simp [new, withPrior]
  · rw [popAll_eq]
    have h1 : ¬ Elem.prior b > Elem.prior a := by omega
    have h2 : Elem.prior a ≥ Elem.prior b := by omega
    simp [pushAll, new, push, walk, h1]
  · rw [popAll_eq]
    decide

/-- C3: invariant I1 holds of the freshly constructed queue, `push` and `pop` each preserve
it, and so it holds in every state reached from a fresh queue by any sequence of `push` and
`pop` calls. -/
theorem I1_invariant :
    I1 (new : TPQueue T) ∧
    (∀ (q : TPQueue T) (v : T), I1 q → I1 (q.push v)) ∧
    (∀ q : TPQueue T, I1 q → I1 (q.pop).2) ∧
    (∀ ops : List (Op T), I1 (run new ops)) :=
  ⟨new_I1, push_I1, pop_I1, fun ops => run_I1 new ops new_I1⟩

/-- Witness of C3 at the queue ('a',5) and the value ('b',7). -/
theorem I1_invariant_witness :
    I1 ((⟨[SYM.mk 'a' 5]⟩ : TPQueue SYM).push (SYM.mk 'b' 7)) ∧
    I1 (run (new : TPQueue SYM) [Op.push (SYM.mk 'a' 5), Op.push (SYM.mk 'b' 7), Op.pop]) :=
  ⟨I1_invariant.2.1 ⟨[SYM.mk 'a' 5]⟩ (SYM.mk 'b' 7) (by decide), I1_invariant.2.2.2 _⟩

/-- C4: on a non-empty queue that satisfies I1, `pop` returns an element of the queue whose
priority is greater than or equal to the priority of every element that remains. -/
theorem pop_returns_highest (q : TPQueue T) (hI : I1 q) (hne : q.empty = false) :
    (q.pop).1 ∈ q.head_ ∧ ∀ x ∈ (q.pop).2.head_, Elem.prior x ≤ Elem.prior (q.pop).1 := by
  rcases q with ⟨_ | ⟨h, rest⟩⟩
  · simp [empty] at hne
  · unfold I1 at hI
    simp only [pop, List.mem_cons, true_or, true_and]
    exact (List.pairwise_cons.1 hI).1

/-- Witness of C4 at the queue ('a',9), ('b',3), ('c',3). -/
theorem pop_returns_highest_witness :
    I1 (⟨[SYM.mk 'a' 9, SYM.mk 'b' 3, SYM.mk 'c' 3]⟩ : TPQueue SYM) ∧
    (⟨[SYM.mk 'a' 9, SYM.mk 'b' 3, SYM.mk 'c' 3]⟩ : TPQueue SYM).empty = false ∧
    ((⟨[SYM.mk 'a' 9, SYM.mk 'b' 3, SYM.mk 'c' 3]⟩ : TPQueue SYM).pop).1 = SYM.mk 'a' 9 ∧
    ∀ x ∈ ((⟨[SYM.mk 'a' 9, SYM.mk 'b' 3, SYM.mk 'c' 3]⟩ : TPQueue SYM).pop).2.head_,
      Elem.prior x ≤ Elem.prior
        ((⟨[SYM.mk 'a' 9, SYM.mk 'b' 3, SYM.mk 'c' 3]⟩ : TPQueue SYM).pop).1 :=
  ⟨by decide, rfl, rfl,
    (pop_returns_highest ⟨[SYM.mk 'a' 9, SYM.mk 'b' 3, SYM.mk 'c' 3]⟩ (by decide) rfl).2⟩

/-- C5: for every chain, sorted or not, and every value `v`, the chain after `push(v)` is the
longest front part of the old chain whose nodes all have `prior >= v.prior`, then `v`, then
the rest of the old chain; the rest is empty or starts with a node of priority strictly lower
than `v.prior`, so `v` sits immediately before the first such node, and at the tail when
there is none. -/
theorem push_placement (q : TPQueue T) (v : T) :
    (q.push v).head_ =
      q.head_.takeWhile (fun x => decide (Elem.prior x ≥ Elem.prior v)) ++ [v] ++
        q.head_.dropWhile (fun x => decide (Elem.prior x ≥ Elem.prior v)) ∧
    (∀ x ∈ q.head_.takeWhile (fun x => decide (Elem.prior x ≥ Elem.prior v)),
      Elem.prior x ≥ Elem.prior v) ∧
    (∀ y, (q.head_.dropWhile (fun x => decide (Elem.prior x ≥ Elem.prior v))).head? = some y →
      Elem.prior y < Elem.prior v) ∧
    ((∀ x ∈ q.head_, Elem.prior x ≥ Elem.prior v) → (q.push v).head_ = q.head_ ++ [v]) := by
  refine ⟨by simp [push_head_eq], fun x hx => ?_, fun y hy => ?_, fun hall => ?_⟩
  · simpa using List.mem_takeWhile_imp hx
  · have := List.head?_dropWhile_not (fun x => decide (Elem.prior x ≥ Elem.prior v)) q.head_
    rw [hy] at this
    simp only [Option.all_some, Bool.not_eq_true', decide_eq_false_iff_not] at this
    omega
  · have ht : q.head_.takeWhile (fun x => decide (Elem.prior x ≥ Elem.prior v)) = q.head_ :=
      List.takeWhile_eq_self_iff.2 (fun x hx => by simpa using hall x hx)
    have hd : q.head_.dropWhile (fun x => decide (Elem.prior x ≥ Elem.prior v)) = [] :=
      List.dropWhile_eq_nil_iff.2 (fun x hx => by simpa using hall x hx)
    rw [push_head_eq, ht, hd]

/-- Witness of C5 at the unsorted chain ('a',4), ('b',1), ('c',6) and the value ('v',3). -/
theorem push_placement_witness :
    ((⟨[SYM.mk 'a' 4, SYM.mk 'b' 1, SYM.mk 'c' 6]⟩ : TPQueue SYM).push (SYM.mk 'v' 3)).head_ =
      [SYM.mk 'a' 4, SYM.mk 'v' 3, SYM.mk 'b' 1, SYM.mk 'c' 6] ∧
    ((⟨[SYM.mk 'a' 4, SYM.mk 'c' 6]⟩ : TPQueue SYM).push (SYM.mk 'v' 3)).head_ =
      [SYM.mk 'a' 4, SYM.mk 'c' 6] ++ [SYM.mk 'v' 3] :=
  ⟨by decide, (push_placement ⟨[SYM.mk 'a' 4, SYM.mk 'c' 6]⟩ (SYM.mk 'v' 3)).2.2.2 (by decide)⟩

/-- C6: with the node made by `push(v)` marked, so that it is told apart from old nodes of
equal payload: the marked run is the run of `push` (dropping the marks gives `push(v)` of the
plain chain); the new node is the head exactly when the queue was empty or `v.prior` was
strictly greater than the old head's priority; and when `v.prior` equals the head's priority
the old head stays the head and the new node comes after every old node of the run of that
priority at the front. -/
theorem push_head_cases (q : TPQueue T) (v : T) :
    ((Marked.chain q).push (Marked.made v)).head_.map Marked.data = (q.push v).head_ ∧
    (((Marked.chain q).push (Marked.made v)).head_.head? = some (Marked.made v) ↔
      (q.empty = true ∨ ∃ h, q.head_.head? = some h ∧ Elem.prior v > Elem.prior h)) ∧
    (∀ h, q.head_.head? = some h → Elem.prior v = Elem.prior h →
      ((Marked.chain q).push (Marked.made v)).head_.head? = some (Marked.old h) ∧
      (q.push v).head_.head? = some h ∧
      ∃ back, ((Marked.chain q).push (Marked.made v)).head_ =
          (q.head_.takeWhile (fun x => decide (Elem.prior x = Elem.prior v))).map Marked.old
            ++ back ∧
        Marked.made v ∈ back) := by
  refine ⟨?_, ?_, ?_⟩
  · rw [push_head_eq_walk, push_head_eq_walk]
    exact walk_marked_data v q.head_
  · rcases q with ⟨_ | ⟨h, rest⟩⟩
    · simp [Marked.chain, push, empty]
    · by_cases hv : Elem.prior v > Elem.prior h
      · simp [Marked.chain, push, empty, prior_old, prior_made, hv]
      · simp only [Marked.chain, push, List.map_cons, prior_old, prior_made, hv, if_false]
        simp [empty, hv, Marked.old, Marked.made]
  · intro h hh hv
    rcases q with ⟨_ | ⟨h', rest⟩⟩
    · simp at hh
    · simp only [List.head?_cons, Option.some.injEq] at hh
      subst hh
      have hlt : ¬ Elem.prior v > Elem.prior h' := by omega
      refine ⟨by simp [Marked.chain, push, prior_old, prior_made, hlt],
        by simp [push, hlt], ?_⟩
      rw [push_head_eq_walk]
      exact walk_marked_tie v (h' :: rest)

/-- Witness of C6: onto the chain ('a',5), ('b',5), ('c',2), a second ('a',5) is pushed; the
old ('a',5) stays the head and the new node comes third, behind both nodes of priority 5. -/
theorem push_head_cases_witness :
    ((Marked.chain (⟨[SYM.mk 'a' 5, SYM.mk 'b' 5, SYM.mk 'c' 2]⟩ : TPQueue SYM)).push
        (Marked.made (SYM.mk 'a' 5))).head_ =
      [Marked.old (SYM.mk 'a' 5), Marked.old (SYM.mk 'b' 5), Marked.made (SYM.mk 'a' 5),
        Marked.old (SYM.mk 'c' 2)] ∧
    ((Marked.chain (⟨[SYM.mk 'a' 5, SYM.mk 'b' 5, SYM.mk 'c' 2]⟩ : TPQueue SYM)).push
        (Marked.made (SYM.mk 'a' 5))).head_.head? = some (Marked.old (SYM.mk 'a' 5)) :=
  ⟨by decide,
    ((push_head_cases ⟨[SYM.mk 'a' 5, SYM.mk 'b' 5, SYM.mk 'c' 2]⟩ (SYM.mk 'a' 5)).2.2
      (SYM.mk 'a' 5) rfl rfl).1⟩

/-- C7: on a non-empty queue, whose chain is `h :: rest`, `pop` returns the head payload `h`
and leaves exactly `rest`: the old chain is the returned value followed by the chain that is
left, and the number of elements goes down by exactly one. -/
theorem pop_nonempty (q : TPQueue T) (hne : q.empty = false) :
    q.head_ = (q.pop).1 :: (q.pop).2.head_ ∧
    (∀ h rest, q.head_ = h :: rest → q.pop = (h, ⟨rest⟩)) ∧
    (q.pop).2.head_.length + 1 = q.head_.length := by
  rcases q with ⟨_ | ⟨h, rest⟩⟩
  · simp [empty] at hne
  · refine ⟨by simp [pop], ?_, by simp [pop]⟩
    intro h' rest' he
    simp only [List.cons.injEq] at he
    obtain ⟨rfl, rfl⟩ := he
    simp [pop]

/-- Witness of C7 at the queue ('y',9), ('z',9), ('x',3). -/
theorem pop_nonempty_witness :
    (⟨[SYM.mk 'y' 9, SYM.mk 'z' 9, SYM.mk 'x' 3]⟩ : TPQueue SYM).empty = false ∧
    (⟨[SYM.mk 'y' 9, SYM.mk 'z' 9, SYM.mk 'x' 3]⟩ : TPQueue SYM).pop =
      (SYM.mk 'y' 9, ⟨[SYM.mk 'z' 9, SYM.mk 'x' 3]⟩) :=
  ⟨rfl, (pop_nonempty ⟨[SYM.mk 'y' 9, SYM.mk 'z' 9, SYM.mk 'x' 3]⟩ rfl).2.1 _ _ rfl⟩

/-- C8: on every queue that reports empty, `pop` returns the default value `T{}`, leaves the
queue as it was, and the queue still reports empty; `pop` is a total function, so no error is
signalled.  A freshly constructed queue reports empty, and so does any queue after as many
pops as it holds elements; for `SYM` the default value has `ch = 0` and `prior = 0`. -/
theorem pop_empty (q : TPQueue T) (he : q.empty = true) :
    (q.pop).1 = Elem.dflt ∧ (q.pop).2 = q ∧ (q.pop).2.empty = true ∧
    (new : TPQueue T).empty = true ∧
    (∀ p : TPQueue T, (popN p.head_.length p).2.empty = true) ∧
    ((Elem.dflt : SYM).ch.toNat = 0 ∧ (Elem.dflt : SYM).prior = 0) := by
  rcases q with ⟨_ | ⟨h, rest⟩⟩
  · refine ⟨rfl, rfl, rfl, rfl, fun p => ?_, rfl, rfl⟩
    have h := popN_snd p.head_.length p
    rw [List.drop_length] at h
    generalize popN p.head_.length p = r at h
    rcases r with ⟨_, ⟨l⟩⟩
    simp only at h
    subst h
    rfl
  · simp [empty] at he

/-- Witness of C8 at the freshly constructed queue of `SYM`. -/
theorem pop_empty_witness :
    (new : TPQueue SYM).empty = true ∧
    ((new : TPQueue SYM).pop).1 = SYM.mk (Char.ofNat 0) 0 ∧
    ((new : TPQueue SYM).pop).2.empty = true :=
  ⟨rfl, (pop_empty (new : TPQueue SYM) rfl).1, (pop_empty (new : TPQueue SYM) rfl).2.2.1⟩

/-- C9, as stated, fails: one element equal to `SYM{}` is pushed (k = 1), and the first pop
already returns a value equal to the default value. -/
theorem pop_count_default_pushed :
    (popN 1 (pushAll (new : TPQueue SYM) [SYM.mk (Char.ofNat 0) 0])).1 = [Elem.dflt] ∧
    ¬ (∀ x ∈ (popN 1 (pushAll (new : TPQueue SYM) [SYM.mk (Char.ofNat 0) 0])).1,
        x ≠ Elem.dflt) := by
  decide

/-- C9, amended: for every sequence `xs` of k elements pushed onto a freshly constructed queue
with no removals in between, k + 1 pops return the k pushed elements (rearranged) and then the
default value `T{}`; the queue reports non-empty before each of the first k pops and empty
after the k-th.  When none of the pushed elements equals `T{}`, the first k returned values
all differ from the default value. -/
theorem pop_count_after_pushes (xs : List T) :
    (∃ real, (popN (xs.length + 1) (pushAll new xs)).1 = real ++ [Elem.dflt] ∧
      real.length = xs.length ∧ real.Perm xs ∧
      ((∀ x ∈ xs, x ≠ Elem.dflt) → ∀ x ∈ real, x ≠ Elem.dflt)) ∧
    (∀ i, i < xs.length → (popN i (pushAll new xs)).2.empty = false) ∧
    (popN xs.length (pushAll new xs)).2.empty = true := by
  have hperm : (pushAll new xs).head_.Perm xs := by
    simpa [new] using pushAll_perm (new : TPQueue T) xs
  have hlen : (pushAll new xs).head_.length = xs.length := hperm.length_eq
  refine ⟨⟨(pushAll new xs).head_, ?_, hlen, hperm,
    fun hx x hx' => hx x (hperm.mem_iff.1 hx')⟩, fun i hi => ?_, ?_⟩
  · rw [popN_fst, hlen, List.take_of_length_le (by omega)]
    simp
  · rw [empty_eq_false_iff, popN_snd]
    intro h
    have := congrArg List.length h
    simp only [List.length_drop, List.length_nil] at this
    omega
  · rw [empty_eq_true_iff, popN_snd, ← hlen, List.drop_length]

/-- Witness of the amended C9: at the pushes ('x',3), ('y',9), none equal to `SYM{}`, and at
the single push of `SYM{}`, where the queue still reports non-empty before the first pop and
empty after it. -/
theorem pop_count_after_pushes_witness :
    (∀ x ∈ [SYM.mk 'x' 3, SYM.mk 'y' 9], x ≠ Elem.dflt) ∧
    (popN 3 (pushAll (new : TPQueue SYM) [SYM.mk 'x' 3, SYM.mk 'y' 9])).1 =
      [SYM.mk 'y' 9, SYM.mk 'x' 3, Elem.dflt] ∧
    (∃ real, (popN 3 (pushAll (new : TPQueue SYM) [SYM.mk 'x' 3, SYM.mk 'y' 9])).1 =
        real ++ [Elem.dflt] ∧
      real.length = 2 ∧ real.Perm [SYM.mk 'x' 3, SYM.mk 'y' 9] ∧
      ((∀ x ∈ [SYM.mk 'x' 3, SYM.mk 'y' 9], x ≠ Elem.dflt) → ∀ x ∈ real, x ≠ Elem.dflt)) ∧
    (popN 2 (pushAll (new : TPQueue SYM) [SYM.mk 'x' 3, SYM.mk 'y' 9])).2.empty = true ∧
    (popN 0 (pushAll (new : TPQueue SYM) [SYM.mk (Char.ofNat 0) 0])).2.empty = false ∧
    (popN 1 (pushAll (new : TPQueue SYM) [SYM.mk (Char.ofNat 0) 0])).2.empty = true :=
  ⟨by decide, by decide,
    (pop_count_after_pushes [SYM.mk 'x' 3, SYM.mk 'y' 9]).1,
    (pop_count_after_pushes [SYM.mk 'x' 3, SYM.mk 'y' 9]).2.2,
    (pop_count_after_pushes [SYM.mk (Char.ofNat 0) 0]).2.1 0 (by decide),
    (pop_count_after_pushes [SYM.mk (Char.ofNat 0) 0]).2.2⟩

/-- C10: `push` is a total function, and for every chain `L` and value `v` the chain after
`push(v)` has length `|L| + 1` and is a permutation of `v :: L`; with the new node marked,
the chain after the call holds exactly one new node, and the old nodes in it are the chain
`L`, in their original order. -/
theorem push_adds_one (q : TPQueue T) (v : T) :
    (q.push v).head_.length = q.head_.length + 1 ∧
    (q.push v).head_.Perm (v :: q.head_) ∧
    ((Marked.chain q).push (Marked.made v)).head_.map Marked.data = (q.push v).head_ ∧
    ((Marked.chain q).push (Marked.made v)).head_.filter (fun m => m.fresh) =
      [Marked.made v] ∧
    ((Marked.chain q).push (Marked.made v)).head_.filter (fun m => !m.fresh) =
      (Marked.chain q).head_ ∧
    (((Marked.chain q).push (Marked.made v)).head_.filter (fun m => !m.fresh)).map Marked.data =
      q.head_ := by
  have hold : ((Marked.chain q).push (Marked.made v)).head_.filter (fun m => !m.fresh) =
      (Marked.chain q).head_ := by
    rw [push_head_eq_walk]
    exact walk_marked_old v q.head_
  refine ⟨by simpa using (push_perm q v).length_eq, push_perm q v, ?_, ?_, hold, ?_⟩
  · rw [push_head_eq_walk, push_head_eq_walk]
    exact walk_marked_data v q.head_
  · rw [push_head_eq_walk]
    exact walk_marked_made v q.head_
  · rw [hold]
    simp [Marked.chain, Marked.old, Function.comp_def]

end TPQueue

namespace TPQueue

variable {T : Type} [Elem T]

/-- C11: pushing ('x',3), ('y',9), ('z',9), ('w',1) in that order onto a freshly constructed
queue of `SYM` and popping five times returns ('y',9), ('z',9), ('x',3), ('w',1) and then the
default element, in that order; the queue then reports empty. -/
theorem scenario_x_y_z_w :
    (popN 5 (pushAll (new : TPQueue SYM)
        [SYM.mk 'x' 3, SYM.mk 'y' 9, SYM.mk 'z' 9, SYM.mk 'w' 1])).1 =
      [SYM.mk 'y' 9, SYM.mk 'z' 9, SYM.mk 'x' 3, SYM.mk 'w' 1, Elem.dflt] ∧
    (Elem.dflt : SYM) = SYM.mk (Char.ofNat 0) 0 ∧
    (popN 5 (pushAll (new : TPQueue SYM)
        [SYM.mk 'x' 3, SYM.mk 'y' 9, SYM.mk 'z' 9, SYM.mk 'w' 1])).2.empty = true := by
  decide

/-- C16: in every state `empty` returns true exactly when the chain holds zero nodes; it is a
function of the queue that returns a `Bool` only, so a call leaves the queue as it is; a
freshly constructed queue reports empty, and after any `push` the queue reports non-empty. -/
theorem empty_contract (q : TPQueue T) (v : T) :
    (q.empty = true ↔ q.head_.length = 0) ∧
    (q.empty = false ↔ 0 < q.head_.length) ∧
    (new : TPQueue T).empty = true ∧
    (q.push v).empty = false := by
  refine ⟨?_, ?_, rfl, ?_⟩
  · rw [empty_eq_true_iff, List.length_eq_zero]
  · rw [empty_eq_false_iff, List.length_pos]
  · rw [empty_eq_false_iff, push_head_eq_walk]
    intro h
    have hm := (mem_walk v v q.head_).2 (Or.inl rfl)
    rw [h] at hm
    simp at hm

/-- C17: on a chain that satisfies I1, `push(v)` splits the old chain in a front part and a
back part and puts the new node between them; every element before the new node has priority
greater than or equal to `v.prior`, and every element after it has priority strictly lower
than `v.prior`, so the new node comes immediately after the last old node of priority
`>= v.prior`. -/
theorem push_sorted_split (q : TPQueue T) (v : T) (hI : I1 q) :
    ∃ front back, q.head_ = front ++ back ∧
      ((Marked.chain q).push (Marked.made v)).head_ =
        front.map Marked.old ++ Marked.made v :: back.map Marked.old ∧
      (q.push v).head_ = front ++ v :: back ∧
      (∀ x ∈ front, Elem.prior x ≥ Elem.prior v) ∧
      (∀ y ∈ back, Elem.prior y < Elem.prior v) := by
  refine ⟨q.head_.takeWhile (fun x => decide (Elem.prior x ≥ Elem.prior v)),
    q.head_.dropWhile (fun x => decide (Elem.prior x ≥ Elem.prior v)),
    (List.takeWhile_append_dropWhile _ _).symm, ?_, push_head_eq q v, fun x hx => ?_,
    dropWhile_lt_of_pairwise v q.head_ hI⟩
  · rw [push_head_eq_walk]
    exact walk_marked_split v q.head_
  · simpa using List.mem_takeWhile_imp hx

/-- Witness of C17: ('v',5) pushed onto the sorted chain ('a',9), ('b',5), ('c',5), ('d',2)
lands behind ('c',5). -/
theorem push_sorted_split_witness :
    I1 (⟨[SYM.mk 'a' 9, SYM.mk 'b' 5, SYM.mk 'c' 5, SYM.mk 'd' 2]⟩ : TPQueue SYM) ∧
    ((⟨[SYM.mk 'a' 9, SYM.mk 'b' 5, SYM.mk 'c' 5, SYM.mk 'd' 2]⟩ : TPQueue SYM).push
        (SYM.mk 'v' 5)).head_ =
      [SYM.mk 'a' 9, SYM.mk 'b' 5, SYM.mk 'c' 5, SYM.mk 'v' 5, SYM.mk 'd' 2] ∧
    ∃ front back,
      [SYM.mk 'a' 9, SYM.mk 'b' 5, SYM.mk 'c' 5, SYM.mk 'd' 2] = front ++ back ∧
      ((Marked.chain (⟨[SYM.mk 'a' 9, SYM.mk 'b' 5, SYM.mk 'c' 5, SYM.mk 'd' 2]⟩ :
          TPQueue SYM)).push (Marked.made (SYM.mk 'v' 5))).head_ =
        front.map Marked.old ++ Marked.made (SYM.mk 'v' 5) :: back.map Marked.old ∧
      ((⟨[SYM.mk 'a' 9, SYM.mk 'b' 5, SYM.mk 'c' 5, SYM.mk 'd' 2]⟩ : TPQueue SYM).push
        (SYM.mk 'v' 5)).head_ = front ++ SYM.mk 'v' 5 :: back ∧
      (∀ x ∈ front, Elem.prior x ≥ Elem.prior (SYM.mk 'v' 5)) ∧
      (∀ y ∈ back, Elem.prior y < Elem.prior (SYM.mk 'v' 5)) :=
  ⟨by decide, by decide,
    push_sorted_split ⟨[SYM.mk 'a' 9, SYM.mk 'b' 5, SYM.mk 'c' 5, SYM.mk 'd' 2]⟩
      (SYM.mk 'v' 5) (by decide)⟩

/-- C19: when the queue is empty or `v.prior` is strictly greater than the priority of its
head, `pop` right after `push(v)` returns `v` and leaves the queue exactly as it was before
the push. -/
theorem push_pop_new_max (q : TPQueue T) (v : T)
    (h : q.empty = true ∨ ∃ hd, q.head_.head? = some hd ∧ Elem.prior v > Elem.prior hd) :
    (q.push v).pop = (v, q) := by
  rcases q with ⟨_ | ⟨hd, rest⟩⟩
  · simp [push, pop]
  · rcases h with h | ⟨hd', hh, hv⟩
    · simp [empty] at h
    · simp only [List.head?_cons, Option.some.injEq] at hh
      subst hh
      simp [push, pop, hv]

/-- Witness of C19: ('n',7) pushed onto the chain ('a',4), ('b',6), then popped. -/
theorem push_pop_new_max_witness :
    ((⟨[SYM.mk 'a' 4, SYM.mk 'b' 6]⟩ : TPQueue SYM).empty = true ∨
      ∃ hd, (⟨[SYM.mk 'a' 4, SYM.mk 'b' 6]⟩ : TPQueue SYM).head_.head? = some hd ∧
        Elem.prior (SYM.mk 'n' 7) > Elem.prior hd) ∧
    ((⟨[SYM.mk 'a' 4, SYM.mk 'b' 6]⟩ : TPQueue SYM).push (SYM.mk 'n' 7)).pop =
      (SYM.mk 'n' 7, ⟨[SYM.mk 'a' 4, SYM.mk 'b' 6]⟩) :=
  ⟨Or.inr ⟨SYM.mk 'a' 4, rfl, by decide⟩,
    push_pop_new_max ⟨[SYM.mk 'a' 4, SYM.mk 'b' 6]⟩ (SYM.mk 'n' 7)
      (Or.inr ⟨SYM.mk 'a' 4, rfl, by decide⟩)⟩

/-- C20: for every chain, sorted or not, and values `a`, `b`: when `a.prior` differs from
`b.prior`, `push(a)` then `push(b)` gives the same chain as `push(b)` then `push(a)`; when
the priorities are equal, the value pushed first comes right before the value pushed second,
both at the place where one push would put a value of that priority, so the two chains
differ whenever `a` differs from `b`. -/
theorem push_order_on_ties (q : TPQueue T) (a b : T) :
    (Elem.prior a ≠ Elem.prior b → (q.push a).push b = (q.push b).push a) ∧
    (Elem.prior a = Elem.prior b →
      ((q.push a).push b).head_ =
        q.head_.takeWhile (fun x => decide (Elem.prior x ≥ Elem.prior a)) ++
          a :: b :: q.head_.dropWhile (fun x => decide (Elem.prior x ≥ Elem.prior a)) ∧
      ((q.push b).push a).head_ =
        q.head_.takeWhile (fun x => decide (Elem.prior x ≥ Elem.prior a)) ++
          b :: a :: q.head_.dropWhile (fun x => decide (Elem.prior x ≥ Elem.prior a))) ∧
    (Elem.prior a = Elem.prior b → a ≠ b → (q.push a).push b ≠ (q.push b).push a) := by
  have hab : ∀ x y : T, Elem.prior x = Elem.prior y →
      ((q.push x).push y).head_ =
        q.head_.takeWhile (fun z => decide (Elem.prior z ≥ Elem.prior x)) ++
          x :: y :: q.head_.dropWhile (fun z => decide (Elem.prior z ≥ Elem.prior x)) := by
    intro x y hxy
    rw [push_head_eq_walk, push_head_eq_walk]
    exact walk_walk_tie x y q.head_ hxy
  refine ⟨fun hne => ?_, fun he => ⟨hab a b he, ?_⟩, fun he hne hpq => ?_⟩
  · have h : ((q.push a).push b).head_ = ((q.push b).push a).head_ := by
      rw [push_head_eq_walk, push_head_eq_walk, push_head_eq_walk, push_head_eq_walk]
      exact walk_walk_comm a b q.head_ hne
    generalize (q.push a).push b = r at h
    generalize (q.push b).push a = r' at h
    cases r
    cases r'
    simp only at h
    rw [h]
  · have h := hab b a he.symm
    rw [← he] at h
    exact h
  · have h1 := hab a b he
    have h2 := hab b a he.symm
    rw [← he] at h2
    rw [hpq, h2] at h1
    have h3 := List.append_cancel_left h1
    simp only [List.cons.injEq] at h3
    exact hne h3.1.symm

/-- Witness of C20 on the unsorted chain ('p',4), ('q',1), ('r',6). -/
theorem push_order_on_ties_witness :
    (((⟨[SYM.mk 'p' 4, SYM.mk 'q' 1, SYM.mk 'r' 6]⟩ : TPQueue SYM).push (SYM.mk 'a' 5)).push
        (SYM.mk 'b' 2) =
      ((⟨[SYM.mk 'p' 4, SYM.mk 'q' 1, SYM.mk 'r' 6]⟩ : TPQueue SYM).push (SYM.mk 'b' 2)).push
        (SYM.mk 'a' 5)) ∧
    (((⟨[SYM.mk 'p' 4, SYM.mk 'q' 1, SYM.mk 'r' 6]⟩ : TPQueue SYM).push (SYM.mk 'a' 3)).push
        (SYM.mk 'b' 3) ≠
      ((⟨[SYM.mk 'p' 4, SYM.mk 'q' 1, SYM.mk 'r' 6]⟩ : TPQueue SYM).push (SYM.mk 'b' 3)).push
        (SYM.mk 'a' 3)) ∧
    (((⟨[SYM.mk 'p' 4, SYM.mk 'q' 1, SYM.mk 'r' 6]⟩ : TPQueue SYM).push (SYM.mk 'a' 3)).push
        (SYM.mk 'b' 3)).head_ =
      [SYM.mk 'p' 4, SYM.mk 'a' 3, SYM.mk 'b' 3, SYM.mk 'q' 1, SYM.mk 'r' 6] :=
  ⟨(push_order_on_ties ⟨[SYM.mk 'p' 4, SYM.mk 'q' 1, SYM.mk 'r' 6]⟩ (SYM.mk 'a' 5)
      (SYM.mk 'b' 2)).1 (by decide),
    (push_order_on_ties ⟨[SYM.mk 'p' 4, SYM.mk 'q' 1, SYM.mk 'r' 6]⟩ (SYM.mk 'a' 3)
      (SYM.mk 'b' 3)).2.2 rfl (by decide),
    by decide⟩

end TPQueue

namespace Mem

variable {T : Type} [Elem T]

/-- C12: for distinct queue objects `a` and `b`, where `a` owns the chain `la`: after the copy
construction `b(a)`, and after the copy assignment `b = a` whatever chain `lb` the object `b`
owned, `b` owns a chain with the payloads of `la` in the same order (so of the same length),
made of nodes none of which is a node of `a`; `a` still owns exactly the nodes `la`; popping
either queue until empty returns the payloads of `la`. -/
theorem copy_equal_contents (m : Mem T) (a b : Nat) (la : List (Nat × T)) (hab : a ≠ b)
    (ha : m.Owns a la) :
    (∃ m' lb', m.copyConstruct b a = some m' ∧ m'.Sep a b la lb' ∧
      lb'.map Prod.snd = la.map Prod.snd ∧ lb'.length = la.length ∧
      m'.popAll b = some (la.map Prod.snd) ∧ m'.popAll a = some (la.map Prod.snd)) ∧
    (∀ lb, m.Owns b lb → (∀ x ∈ la.map Prod.fst, x ∉ lb.map Prod.fst) →
      ∃ m' lb', m.copyAssign b a = some m' ∧ m'.Sep a b la lb' ∧
        lb'.map Prod.snd = la.map Prod.snd ∧ lb'.length = la.length ∧
        m'.popAll b = some (la.map Prod.snd) ∧ m'.popAll a = some (la.map Prod.snd)) := by
  refine ⟨?_, fun lb hb hdis => ?_⟩
  · obtain ⟨m', lb', hc, hsep, hd⟩ := copyConstruct_spec hab ha
    refine ⟨m', lb', hc, hsep, hd, ?_, ?_, popAll_spec hsep.2.1⟩
    · simpa using congrArg List.length hd
    · rw [popAll_spec hsep.2.2.1, hd]
  · obtain ⟨m', lb', hc, hsep, hd, -⟩ := copyAssign_spec (⟨hab, ha, hb, hdis⟩ : m.Sep a b la lb)
    refine ⟨m', lb', hc, hsep, hd, ?_, ?_, popAll_spec hsep.2.1⟩
    · simpa using congrArg List.length hd
    · rw [popAll_spec hsep.2.2.1, hd]

/-- Witness of C12: in the example memory the queue at 1, which holds ('w',1), is assigned
the queue at 0, which holds ('y',9), ('x',3). -/
theorem copy_equal_contents_witness :
    demo.Owns 0 [(0, SYM.mk 'y' 9), (2, SYM.mk 'x' 3)] ∧
    (demo.copyAssign 1 0).bind (fun m => m.popAll 1) =
      some [SYM.mk 'y' 9, SYM.mk 'x' 3] ∧
    (demo.copyAssign 1 0).bind (fun m => m.popAll 0) =
      some [SYM.mk 'y' 9, SYM.mk 'x' 3] ∧
    ∃ m' lb', demo.copyAssign 1 0 = some m' ∧
      m'.Sep 0 1 [(0, SYM.mk 'y' 9), (2, SYM.mk 'x' 3)] lb' ∧
      lb'.map Prod.snd = [SYM.mk 'y' 9, SYM.mk 'x' 3] ∧ lb'.length = 2 ∧
      m'.popAll 1 = some [SYM.mk 'y' 9, SYM.mk 'x' 3] ∧
      m'.popAll 0 = some [SYM.mk 'y' 9, SYM.mk 'x' 3] :=
  ⟨demo_sep.2.1, by decide, by decide,
    (copy_equal_contents demo 0 1 [(0, SYM.mk 'y' 9), (2, SYM.mk 'x' 3)] (by decide)
      demo_sep.2.1).2 [(1, SYM.mk 'w' 1)] demo_sep.2.2.1 demo_sep.2.2.2⟩

end Mem

namespace Mem

variable {T : Type} [Elem T]

/-- C13: for distinct queue objects `a` and `b` that own disjoint chains, after the copy
assignment `b = a`, and likewise after the copy construction `b(a)`: for every sequence of
`push` and `pop` calls then applied to `a`, the calls succeed and change `a` as they change a
list, and popping `b` until empty afterwards returns what it would have returned without
them; and the same with `a` and `b` exchanged. -/
theorem copy_independence (m : Mem T) (a b : Nat) (la lb : List (Nat × T))
    (h : m.Sep a b la lb) (ops : List (Op T)) :
    (∃ m₁, m.copyAssign b a = some m₁ ∧
      m₁.popAll b = some (la.map Prod.snd) ∧ m₁.popAll a = some (la.map Prod.snd) ∧
      (∃ m₂, m₁.run a ops = some m₂ ∧ m₂.popAll b = m₁.popAll b ∧
        m₂.popAll a = some (TPQueue.run ⟨la.map Prod.snd⟩ ops).head_) ∧
      (∃ m₂, m₁.run b ops = some m₂ ∧ m₂.popAll a = m₁.popAll a ∧
        m₂.popAll b = some (TPQueue.run ⟨la.map Prod.snd⟩ ops).head_)) ∧
    (∃ m₁, m.copyConstruct b a = some m₁ ∧
      m₁.popAll b = some (la.map Prod.snd) ∧ m₁.popAll a = some (la.map Prod.snd) ∧
      (∃ m₂, m₁.run a ops = some m₂ ∧ m₂.popAll b = m₁.popAll b ∧
        m₂.popAll a = some (TPQueue.run ⟨la.map Prod.snd⟩ ops).head_) ∧
      (∃ m₂, m₁.run b ops = some m₂ ∧ m₂.popAll a = m₁.popAll a ∧
        m₂.popAll b = some (TPQueue.run ⟨la.map Prod.snd⟩ ops).head_)) := by
  have key : ∀ (m₁ : Mem T) (lb' : List (Nat × T)), m₁.Sep a b la lb' →
      lb'.map Prod.snd = la.map Prod.snd →
      m₁.popAll b = some (la.map Prod.snd) ∧ m₁.popAll a = some (la.map Prod.snd) ∧
      (∃ m₂, m₁.run a ops = some m₂ ∧ m₂.popAll b = m₁.popAll b ∧
        m₂.popAll a = some (TPQueue.run ⟨la.map Prod.snd⟩ ops).head_) ∧
      (∃ m₂, m₁.run b ops = some m₂ ∧ m₂.popAll a = m₁.popAll a ∧
        m₂.popAll b = some (TPQueue.run ⟨la.map Prod.snd⟩ ops).head_) := by
    intro m₁ lb' hsep hd
    refine ⟨?_, popAll_spec hsep.2.1, independent_of_sep hsep ops, ?_⟩
    · rw [popAll_spec hsep.2.2.1, hd]
    · have := independent_of_sep hsep.symm ops
      rwa [hd] at this
  constructor
  · obtain ⟨m₁, lb', hc, hsep, hd, -⟩ := copyAssign_spec h
    exact ⟨m₁, hc, key m₁ lb' hsep hd⟩
  · obtain ⟨m₁, lb', hc, hsep, hd⟩ := copyConstruct_spec h.1 h.2.1
    exact ⟨m₁, hc, key m₁ lb' hsep hd⟩

/-- Witness of C13: in the example memory the queue at 1 is assigned the queue at 0; then
('n',5) is pushed onto one of them and it is popped twice. -/
theorem copy_independence_witness :
    demo.Sep 0 1 [(0, SYM.mk 'y' 9), (2, SYM.mk 'x' 3)] [(1, SYM.mk 'w' 1)] ∧
    ((demo.copyAssign 1 0).bind
        (fun m => m.run 0 [Op.push (SYM.mk 'n' 5), Op.pop, Op.pop])).bind
      (fun m => m.popAll 0) = some [SYM.mk 'x' 3] ∧
    ((demo.copyAssign 1 0).bind
        (fun m => m.run 0 [Op.push (SYM.mk 'n' 5), Op.pop, Op.pop])).bind
      (fun m => m.popAll 1) = some [SYM.mk 'y' 9, SYM.mk 'x' 3] ∧
    ∃ m₁, demo.copyAssign 1 0 = some m₁ ∧
      m₁.popAll 1 = some [SYM.mk 'y' 9, SYM.mk 'x' 3] ∧
      m₁.popAll 0 = some [SYM.mk 'y' 9, SYM.mk 'x' 3] ∧
      (∃ m₂, m₁.run 0 [Op.push (SYM.mk 'n' 5), Op.pop, Op.pop] = some m₂ ∧
        m₂.popAll 1 = m₁.popAll 1 ∧
        m₂.popAll 0 = some (TPQueue.run ⟨[SYM.mk 'y' 9, SYM.mk 'x' 3]⟩
          [Op.push (SYM.mk 'n' 5), Op.pop, Op.pop]).head_) ∧
      (∃ m₂, m₁.run 1 [Op.push (SYM.mk 'n' 5), Op.pop, Op.pop] = some m₂ ∧
        m₂.popAll 0 = m₁.popAll 0 ∧
        m₂.popAll 1 = some (TPQueue.run ⟨[SYM.mk 'y' 9, SYM.mk 'x' 3]⟩
          [Op.push (SYM.mk 'n' 5), Op.pop, Op.pop]).head_) :=
  ⟨demo_sep, by decide, by decide,
    (copy_independence demo 0 1 [(0, SYM.mk 'y' 9), (2, SYM.mk 'x' 3)] [(1, SYM.mk 'w' 1)]
      demo_sep [Op.push (SYM.mk 'n' 5), Op.pop, Op.pop]).1⟩

/-- C14: for distinct queue objects `a` and `b`, where `a` owns the chain `la`: after the move
construction of `b` from `a`, and after the move assignment `b = move(a)` whatever chain `lb`
the object `b` owned, `b` owns exactly the nodes `la`, so popping `b` until empty returns
what popping `a` would have returned before the move, and `a` reports empty; the move
assignment has deleted every node of `lb`. -/
theorem move_transfer (m : Mem T) (a b : Nat) (la : List (Nat × T)) (hab : a ≠ b)
    (ha : m.Owns a la) :
    (∃ m', m.moveConstruct b a = some m' ∧ m'.Owns b la ∧ m'.empty a = true ∧
      m'.popAll b = m.popAll a ∧ m'.popAll a = some []) ∧
    (∀ lb, m.Owns b lb → (∀ x ∈ la.map Prod.fst, x ∉ lb.map Prod.fst) →
      ∃ m', m.moveAssign b a = some m' ∧ m'.Owns b la ∧ m'.empty a = true ∧
        m'.popAll b = m.popAll a ∧ m'.popAll a = some [] ∧
        ∀ x ∈ lb.map Prod.fst, m'.node x = none) := by
  have hnil : ∀ m' : Mem T, m'.head_ a = none → m'.popAll a = some [] := by
    intro m' hh
    unfold popAll
    cases m'.brk <;> simp [popAllLoop, empty, hh]
  refine ⟨?_, fun lb hb hdis => ?_⟩
  · obtain ⟨hown, hhead, -⟩ := steal_spec hab ha
    refine ⟨m.steal b a, rfl, hown, by simp [empty, hhead], ?_, hnil _ hhead⟩
    rw [popAll_spec hown, popAll_spec ha]
  · obtain ⟨m', hmv, hown, hhead, hdead⟩ :=
      moveAssign_spec (⟨hab, ha, hb, hdis⟩ : m.Sep a b la lb)
    refine ⟨m', hmv, hown, by simp [empty, hhead], ?_, hnil _ hhead, hdead⟩
    rw [popAll_spec hown, popAll_spec ha]

/-- Witness of C14: in the example memory the queue at 1, which holds ('w',1), is
move-assigned the queue at 0, which holds ('y',9), ('x',3). -/
theorem move_transfer_witness :
    demo.Owns 0 [(0, SYM.mk 'y' 9), (2, SYM.mk 'x' 3)] ∧
    (demo.moveAssign 1 0).bind (fun m => m.popAll 1) = some [SYM.mk 'y' 9, SYM.mk 'x' 3] ∧
    (demo.moveAssign 1 0).map (fun m => m.empty 0) = some true ∧
    ∃ m', demo.moveAssign 1 0 = some m' ∧
      m'.Owns 1 [(0, SYM.mk 'y' 9), (2, SYM.mk 'x' 3)] ∧ m'.empty 0 = true ∧
      m'.popAll 1 = demo.popAll 0 ∧ m'.popAll 0 = some [] ∧
      ∀ x ∈ [(1, SYM.mk 'w' 1)].map Prod.fst, m'.node x = none :=
  ⟨demo_sep.2.1, by decide, by decide,
    (move_transfer demo 0 1 [(0, SYM.mk 'y' 9), (2, SYM.mk 'x' 3)] (by decide)
      demo_sep.2.1).2 [(1, SYM.mk 'w' 1)] demo_sep.2.2.1 demo_sep.2.2.2⟩

/-- C15: for every queue object `q`, in every memory, the copy assignment `q = q` and the
move assignment `q = move(q)` both leave the memory exactly as it was, so `q` keeps its chain:
the same nodes, with the same payloads in the same order, none of them deleted. -/
theorem self_assignment (m : Mem T) (q : Nat) :
    m.copyAssign q q = some m ∧ m.moveAssign q q = some m ∧
    (∀ l : List (Nat × T), m.Owns q l →
      (m.copyAssign q q).bind (fun m' => m'.popAll q) = some (l.map Prod.snd) ∧
      (m.moveAssign q q).bind (fun m' => m'.popAll q) = some (l.map Prod.snd)) := by
  have h1 : m.copyAssign q q = some m := by simp [copyAssign]
  have h2 : m.moveAssign q q = some m := by simp [moveAssign]
  refine ⟨h1, h2, fun l hl => ?_⟩
  rw [h1, h2]
  simp [popAll_spec hl]

/-- Witness of C15: the queue at 0 of the example memory assigned to itself. -/
theorem self_assignment_witness :
    (demo.copyAssign 0 0).bind (fun m' => m'.popAll 0) = some [SYM.mk 'y' 9, SYM.mk 'x' 3] ∧
    (demo.moveAssign 0 0).bind (fun m' => m'.popAll 0) = some [SYM.mk 'y' 9, SYM.mk 'x' 3] :=
  (self_assignment demo 0).2.2 [(0, SYM.mk 'y' 9), (2, SYM.mk 'x' 3)] demo_sep.2.1

/-- C18: for every queue object that owns a chain of n nodes, `Clear`, which is all the
destructor does and what both assignment operators call first, comes to an end after exactly
n pops; afterwards the queue reports empty, every one of its n nodes has been deleted (a
second deletion of a node would be undefined), and every other node is as it was.  On a queue
whose `head_` is `nullptr`, as after construction or after a move from it, `Clear` makes no
pop and changes nothing. -/
theorem clear_teardown (m : Mem T) (this : Nat) (l : List (Nat × T)) (h : m.Owns this l) :
    (∃ m', m.Clear this = some (l.length, m') ∧ m.destruct this = some (l.length, m') ∧
      m'.empty this = true ∧ (∀ x ∈ l.map Prod.fst, m'.node x = none) ∧
      (∀ y, y ∉ l.map Prod.fst → m'.node y = m.node y)) ∧
    (∀ (m₀ : Mem T) (q : Nat), m₀.head_ q = none → m₀.Clear q = some (0, m₀)) ∧
    (∀ (m₀ : Mem T) (q o : Nat), ((m₀.steal q o).Clear o) = some (0, m₀.steal q o)) := by
  refine ⟨?_, Clear_of_empty, fun m₀ q o => Clear_of_empty _ _ (by simp [steal, put])⟩
  obtain ⟨m', hcl, hm, -, hdead, hfr⟩ := Clear_spec h
  refine ⟨m', hcl, hcl, ?_, hdead, hfr⟩
  have : m'.head_ this = none := hm.1.1
  simp [empty, this]

/-- Witness of C18: `Clear` on the queue at 0 of the example memory, which owns two nodes. -/
theorem clear_teardown_witness :
    demo.Owns 0 [(0, SYM.mk 'y' 9), (2, SYM.mk 'x' 3)] ∧
    (demo.Clear 0).map Prod.fst = some 2 ∧
    (demo.Clear 0).map (fun r => (r.2.node 0, r.2.node 1, r.2.node 2, r.2.empty 0)) =
      some (none, some ⟨SYM.mk 'w' 1, none⟩, none, true) ∧
    ∃ m', demo.Clear 0 = some ([(0, SYM.mk 'y' 9), (2, SYM.mk 'x' 3)].length, m') ∧
      demo.destruct 0 = some ([(0, SYM.mk 'y' 9), (2, SYM.mk 'x' 3)].length, m') ∧
      m'.empty 0 = true ∧
      (∀ x ∈ [(0, SYM.mk 'y' 9), (2, SYM.mk 'x' 3)].map Prod.fst, m'.node x = none) ∧
      (∀ y, y ∉ [(0, SYM.mk 'y' 9), (2, SYM.mk 'x' 3)].map Prod.fst →
        m'.node y = demo.node y) :=
  ⟨demo_sep.2.1, by decide, by decide,
    (clear_teardown demo 0 [(0, SYM.mk 'y' 9), (2, SYM.mk 'x' 3)] demo_sep.2.1).1⟩

end Mem

end TPQ
